import Mathlib

/-! go-flags: the struct scanner and the group tree (`group_private.go`).

A shallow embedding of `group_private.go` and theorems about it.

Modelling conventions.

* A Go `string` is a Lean `String`, read as its sequence of Unicode code points
  (`String.data`); Go strings that are not valid UTF-8 are outside the model.
  A `rune` is a `Char`; the rune `0` is `Char.ofNat 0`.
* A Go pointer that may be `nil` (`*Option`, `*Group`, `*reflect.StructField`) is a Lean
  `Option`; the Go struct `Option` is `flags.Option`.
* Mutation of the receiver `g` is explicit state passing: a method that changes `g`
  returns the new `g`.
* `reflect` is modelled by the data the scanner reads from it: a struct value is the list
  of its fields, each with its descriptor (`reflect.StructField`) and its value.
-/

set_option autoImplicit false

/-! ## Data model -/

/-- Modelled from the spec: the `multiTag` type (`newMultiTag`, `Get`, `GetMany`) is declared
outside `group_private.go`. It is the parsed form of one field's tag text: an association
list from key to the values given for that key, in order. -/
structure flags.multiTag where
  cache : List (String × List String)
deriving DecidableEq, Repr

/-- Modelled from the spec: `MultiTag.GetMany(key)`, the ordered sequence of the values of
`key` (empty when the key is absent). -/
def flags.multiTag.GetMany (x : flags.multiTag) (key : String) : List String :=
  match x.cache.find? (fun e => e.1 == key) with
  | some e => e.2
  | none => []

/-- Modelled from the spec: `MultiTag.Get(key)`, a single string, "last-wins or empty". -/
def flags.multiTag.Get (x : flags.multiTag) (key : String) : String :=
  (x.GetMany key).getLast?.getD ""

/-- The part of `reflect.StructField` the scanner reads: `Name`, `PkgPath` (non-empty exactly
for a non-exported field) and `Tag`. `Tag` holds the tag already parsed, that is
`newMultiTag(string(field.Tag))`; the kind of `field.Type` is carried by the field's
`reflect.Value`. -/
structure reflect.StructField where
  Name : String
  PkgPath : String
  Tag : flags.multiTag
deriving DecidableEq, Repr

/-- A `reflect.Value` as the scanner and `storeDefaults` see it, by the kind of its type.
`other` is a value of any kind that is neither a struct nor a pointer to a struct, with
what `CanSet()` reports and its contents; `Struct` is a struct value, the list of its
fields in declaration order; `PtrToStruct` is a pointer whose element type is a struct,
`none` when the pointer is nil. -/
inductive reflect.Value where
  | other (canSet : Bool) (contents : List String)
  | Struct (fields : List (reflect.StructField × reflect.Value))
  | PtrToStruct (elem : Option (List (reflect.StructField × reflect.Value)))

/-- A struct value: its fields in declaration order, `stype.Field(i)` paired with
`realval.Field(i)`. -/
abbrev reflect.Record := List (reflect.StructField × reflect.Value)

/-- A `reflect.Value` that may be the invalid zero `reflect.Value` (`none`). -/
abbrev reflect.ValueOrZero := Option reflect.Value

/-- The Go struct `Option`, with the fields `scanStruct` fills in, in the order of the
composite literal there, and `defaultValue` (written by `storeDefaults`; `none` is the
invalid zero `reflect.Value`). `ShortName` is a rune, `Char.ofNat 0` meaning absent. -/
structure flags.Option where
  Description : String
  ShortName : Char
  LongName : String
  Default : List String
  OptionalArgument : Bool
  OptionalValue : List String
  Required : Bool
  ValueName : String
  DefaultMask : String
  IniName : String
  field : reflect.StructField
  value : reflect.Value
  tag : flags.multiTag
  defaultValue : reflect.ValueOrZero

/-- The Go struct `Group`: `data` is the record the group's pointer points to. -/
inductive flags.Group where
  | mk (ShortDescription : String) (LongDescription : String) (data : reflect.Record)
      (options : List flags.Option) (groups : List flags.Group)

/-- Field `ShortDescription` of a group. -/
def flags.Group.ShortDescription : flags.Group → String
  | .mk sd _ _ _ _ => sd

/-- Field `LongDescription` of a group. -/
def flags.Group.LongDescription : flags.Group → String
  | .mk _ ld _ _ _ => ld

/-- Field `data` of a group. -/
def flags.Group.data : flags.Group → reflect.Record
  | .mk _ _ d _ _ => d

/-- Field `options` of a group. -/
def flags.Group.options : flags.Group → List flags.Option
  | .mk _ _ _ os _ => os

/-- Field `groups` of a group. -/
def flags.Group.groups : flags.Group → List flags.Group
  | .mk _ _ _ _ gs => gs

/-- The assignment `g.options = os`. -/
def flags.Group.setOptions : flags.Group → List flags.Option → flags.Group
  | .mk sd ld d _ gs, os => .mk sd ld d os gs

/-- The assignment `g.groups = gs`. -/
def flags.Group.setGroups : flags.Group → List flags.Group → flags.Group
  | .mk sd ld d os _, gs => .mk sd ld d os gs

/-- The assignment `g.data = d`: the group bound to another record. -/
def flags.Group.setData : flags.Group → reflect.Record → flags.Group
  | .mk sd ld _ os gs, d => .mk sd ld d os gs

/-- Go `error` values: the sentinel `ErrShortNameTooLong` and any other error. -/
inductive flags.error where
  | ErrShortNameTooLong
  | other (msg : String)
deriving DecidableEq, Repr

/-- `newGroup`: a group with the given descriptions and data, no options, no children. -/
def newGroup (shortDescription : String) (longDescription : String) (data : reflect.Record) :
    flags.Group :=
  .mk shortDescription longDescription data [] []

/-! ## `optionByName` -/

/-- The running state of the loop of `optionByName`: `prio` and `retopt`. -/
abbrev optionByNameState := Nat × Option flags.Option

/-- One iteration of the loop of `optionByName`, the four `if` statements in order. -/
def optionByNameStep (name : String) (namematch : Option (flags.Option → String → Bool))
    (st : optionByNameState) (opt : flags.Option) : optionByNameState :=
  let st1 : optionByNameState :=
    if (match namematch with
        | some nm => nm opt name
        | none => false) && decide (st.1 < 4)
    then (4, some opt) else st
  let st2 : optionByNameState :=
    if name = opt.field.Name ∧ st1.1 < 3 then (3, some opt) else st1
  let st3 : optionByNameState :=
    if name = opt.LongName ∧ st2.1 < 2 then (2, some opt) else st2
  if opt.ShortName ≠ Char.ofNat 0 ∧ name = String.singleton opt.ShortName ∧ st3.1 < 1
  then (1, some opt) else st3

/-- The loop of `optionByName` run over the options, from `prio := 0`, `retopt := nil`. -/
def optionByNameLoop (g : flags.Group) (name : String)
    (namematch : Option (flags.Option → String → Bool)) : optionByNameState :=
  g.options.foldl (optionByNameStep name namematch) (0, none)

/-- `optionByName`: the `retopt` the loop ends with. -/
def optionByName (g : flags.Group) (name : String)
    (namematch : Option (flags.Option → String → Bool)) : Option flags.Option :=
  (optionByNameLoop g name namematch).2

/-! ## `eachGroup` -/

mutual
/-- `eachGroup`: the visitor `f` acts on a state `σ` (what its calls have done so far);
`f(g)` first, then the loop over `g.groups`. -/
def eachGroup {σ : Type} (f : flags.Group → σ → σ) (recurse : Bool) : flags.Group → σ → σ
  | .mk sd ld d os gs, s => eachGroupLoop f recurse gs (f (.mk sd ld d os gs) s)
/-- The loop `for _, gg := range g.groups` of `eachGroup`. -/
def eachGroupLoop {σ : Type} (f : flags.Group → σ → σ) (recurse : Bool) :
    List flags.Group → σ → σ
  | [], s => s
  | gg :: rest, s =>
    eachGroupLoop f recurse rest (if recurse then eachGroup f true gg s else f gg s)
end

/-! ## `scanStruct`, `scanSubGroupHandler`, `scanType`, `scan` -/

/-- `utf8.RuneCountInString`: the number of code points of the string. -/
def utf8.RuneCountInString (s : String) : Nat := s.data.length

/-- `utf8.DecodeRuneInString`: the first code point, `RuneError` (U+FFFD) for the empty
string. -/
def utf8.DecodeRuneInString (s : String) : Char := s.data.headD (Char.ofNat 0xFFFD)

/-- What a scan returns: `none` when the call does not return (a handler that does not
return), else the `error` (`none` for `nil`) and the group as the call leaves it. -/
abbrev scanResult := Option (Option flags.error × flags.Group)

/-- The type `scanHandler`, `func(reflect.Value, *reflect.StructField) (bool, error)`. The
handler is a closure that may change the group being scanned, so it takes the group and
returns it with its two results; `none` when the handler does not return. -/
abbrev scanHandler :=
  reflect.Record → reflect.StructField → flags.Group →
    Option ((Bool × Option flags.error) × flags.Group)

/-- The loop body of `scanStruct` from `longname := mtag.Get("long")` to the `append`, for a
field that is not dived into: `(some err, g)` for `return err`, `(none, g)` with `g`
unchanged for `continue`, `(none, g')` after the `append`. -/
def scanStructOption (field : reflect.StructField) (value : reflect.Value)
    (mtag : flags.multiTag) (g : flags.Group) : Option flags.error × flags.Group :=
  let longname := mtag.Get "long"
  let shortname := mtag.Get "short"
  if longname = "" ∧ shortname = "" then (none, g)
  else
    let rc := utf8.RuneCountInString shortname
    if rc > 1 then (some flags.error.ErrShortNameTooLong, g)
    else
      let short := if rc = 1 then utf8.DecodeRuneInString shortname else Char.ofNat 0
      let description := mtag.Get "description"
      let «def» := mtag.GetMany "default"
      let optionalValue := mtag.GetMany "optional-value"
      let valueName := mtag.Get "value-name"
      let defaultMask := mtag.Get "default-mask"
      let ininame := mtag.Get "ini-name"
      let optional := decide (mtag.Get "optional" ≠ "")
      let required := decide (mtag.Get "required" ≠ "")
      let option : flags.Option :=
        { Description := description
          ShortName := short
          LongName := longname
          Default := «def»
          OptionalArgument := optional
          OptionalValue := optionalValue
          Required := required
          ValueName := valueName
          DefaultMask := defaultMask
          IniName := ininame
          field := field
          value := value
          tag := mtag
          defaultValue := none }
      (none, g.setOptions (g.options ++ [option]))

/-- The head of `scanStruct`, `if sfield != nil { ... handler ... }`, followed by the field
walk `walk` of the same record. -/
def scanStructFrom (handler : scanHandler) (walk : flags.Group → scanResult)
    (realval : reflect.Record) (sfield : Option reflect.StructField) (g : flags.Group) :
    scanResult :=
  match sfield with
  | some sf =>
    match handler realval sf g with
    | none => none
    | some ((_, some err), g1) => some (some err, g1)
    | some ((true, none), g1) => some (none, g1)
    | some ((false, none), g1) => walk g1
  | none => walk g

mutual
/-- The field walk of `scanStruct`, `for i := 0; i < stype.NumField(); i++`, over the
fields still to visit. -/
def scanStructWalk (handler : scanHandler) : reflect.Record → flags.Group → scanResult
  | [], g => some (none, g)
  | fv :: rest, g =>
    let field := fv.1
    if field.PkgPath ≠ "" then scanStructWalk handler rest g
    else
      let mtag := field.Tag
      if mtag.Get "no-flag" ≠ "" then scanStructWalk handler rest g
      else
        match scanStructDive handler field fv.2 g with
        | some r => r
        | none =>
          match scanStructOption field fv.2 mtag g with
          | (some err, g1) => some (some err, g1)
          | (none, g1) => scanStructWalk handler rest g1
termination_by structural r => r
/-- The statement `if kind == reflect.Struct { return ... } else if kind == reflect.Ptr &&
... { return ... }` of the walk, on the value of the field: `some r` when it returns `r`,
`none` when neither branch is taken. A `return g.scanStruct(...)` is the head of
`scanStruct` on the nested record followed by the walk of it (see `scanStruct`). -/
def scanStructDive (handler : scanHandler) (field : reflect.StructField) :
    reflect.Value → flags.Group → Option scanResult
  | .Struct fields, g =>
    some (scanStructFrom handler (scanStructWalk handler fields) fields (some field) g)
  | .PtrToStruct (some fields), g =>
    some (scanStructFrom handler (scanStructWalk handler fields) fields (some field) g)
  | .PtrToStruct none, _ => none
  | .other _ _, _ => none
termination_by structural v => v
end

/-- `scanStruct(realval, sfield, handler)` on the group `g`. -/
def scanStruct (handler : scanHandler) (realval : reflect.Record)
    (sfield : Option reflect.StructField) (g : flags.Group) : scanResult :=
  scanStructFrom handler (scanStructWalk handler realval) realval sfield g

/-- Modelled from the spec: `AddGroup` is declared outside `group_private.go`. It
"constructs a child Group from the declared group name and description, recursively scans
it (via the same top-level scan entry point), and registers it as a child of the current
Group", "propagating any nested-scan error"; on such an error the group is left as it was.
`scan` is the method `scan` of the new group (the name `AddGroup` alone is taken by the
library). -/
def flags.Group.AddGroup (g : flags.Group) (scan : flags.Group → scanResult)
    (shortDescription : String) (longDescription : String) (data : reflect.Record) :
    scanResult :=
  let group := newGroup shortDescription longDescription data
  match scan group with
  | none => none
  | some (some err, _) => some (some err, g)
  | some (none, group1) => some (none, g.setGroups (g.groups ++ [group1]))

/-- `scanSubGroupHandler` of the group `g`; `scan` is the method `scan` that `AddGroup`
runs on the new group. -/
def scanSubGroupHandler (scan : flags.Group → scanResult) : scanHandler :=
  fun realval sfield g =>
    let mtag := sfield.Tag
    let subgroup := mtag.Get "group"
    if subgroup.data.length ≠ 0 then
      let description := mtag.Get "description"
      match g.AddGroup scan subgroup description realval with
      | none => none
      | some (some err, g1) => some ((true, some err), g1)
      | some (none, g1) => some ((true, none), g1)
    else some ((false, none), g)

/-- `scanType(handler)`: `g.data` is a pointer to a struct by the type of `data`, so neither
`panic` is reached; the scan of the record with no originating field. -/
def scanType (handler : scanHandler) (g : flags.Group) : scanResult :=
  scanStruct handler g.data none g

/-- `scan()`, `g.scanType(g.scanSubGroupHandler)`. The recursion of `scan` through
`scanSubGroupHandler` and `AddGroup` is cut by a fuel: `scan (n+1)` may enter `n` levels of
groups below `g`; `none` when the fuel runs out. -/
def scan : Nat → flags.Group → scanResult
  | 0, _ => none
  | n + 1, g => scanType (scanSubGroupHandler (scan n)) g

mutual
/-- The number of struct levels below a record, an upper bound of the levels of groups a
scan of it enters. -/
def recordLevels : reflect.Record → Nat
  | [] => 0
  | fv :: rest => max (valueLevels fv.2) (recordLevels rest)
termination_by structural r => r
/-- The number of struct levels of a value: one more than its record's when it is a struct
or a non-nil pointer to one, else none. -/
def valueLevels : reflect.Value → Nat
  | .Struct fields => recordLevels fields + 1
  | .PtrToStruct (some fields) => recordLevels fields + 1
  | .PtrToStruct none => 0
  | .other _ _ => 0
termination_by structural v => v
end

/-! ## `groupByName` -/

/-- `strings.ToLower`: `unicode.ToLower`, the rune mapping `lower` of the Go standard
library (a parameter here), applied to every code point. -/
def strings.ToLower (lower : Char → Char) (s : String) : String := ⟨s.data.map lower⟩

/-- `strings.HasPrefix`. -/
def strings.HasPrefix (s : String) (pfx : String) : Bool := pfx.data.isPrefixOf s.data

/-- The slice `s[n:]` where `n` is the length of a prefix of `s`, given as its number of
code points. -/
def strings.sliceFrom (s : String) (n : Nat) : String := ⟨s.data.drop n⟩

mutual
/-- `groupByName`; `lower` is `unicode.ToLower`. -/
def groupByName (lower : Char → Char) (name : String) : flags.Group → Option flags.Group
  | .mk sd ld d os gs =>
    let name := strings.ToLower lower name
    if name.data.length = 0 then some (.mk sd ld d os gs)
    else groupByNameLoop lower name gs
/-- The loop `for _, subg := range g.groups` of `groupByName`, `name` already lowered. -/
def groupByNameLoop (lower : Char → Char) (name : String) :
    List flags.Group → Option flags.Group
  | [] => none
  | subg :: rest =>
    let lname := strings.ToLower lower subg.ShortDescription
    let pfx := lname ++ "."
    if strings.HasPrefix name pfx then
      match groupByName lower (strings.sliceFrom name pfx.data.length) subg with
      | some grp => some grp
      | none => groupByNameLoop lower name rest
    else if name = lname then some subg
    else groupByNameLoop lower name rest
end

/-! ## `storeDefaults` -/

/-- `reflect.Value.CanSet`. A struct or pointer value of the model is a field the scanner
reached, an exported field of an addressable record, and is settable. -/
def reflect.Value.CanSet : reflect.Value → Bool
  | .other canSet _ => canSet
  | .Struct _ => true
  | .PtrToStruct _ => true

/-- `reflect.ValueOf(v.Interface())`: a new value holding what `v` holds; it is not bound to
any storage, hence not settable. -/
def reflect.ValueOfInterface : reflect.Value → reflect.Value
  | .other _ contents => .other false contents
  | .Struct fields => .Struct fields
  | .PtrToStruct elem => .PtrToStruct elem

/-- The body of the loop of `storeDefaults` for one option. `option.clear()` and
`option.set(&d)` are declared outside `group_private.go`; they are the parameters `clear`
and `set`, which act on the bound value of the option (`set` reads the tag of the option
too) and whose result `storeDefaults` ignores. -/
def storeDefaultsOption (clear : reflect.Value → reflect.Value)
    (set : flags.multiTag → String → reflect.Value → reflect.Value)
    (option : flags.Option) : flags.Option :=
  let option1 : flags.Option :=
    if option.Default.length > 0 then { option with value := clear option.value } else option
  let option2 : flags.Option :=
    option.Default.foldl (fun o d => { o with value := set o.tag d o.value }) option1
  if !option2.value.CanSet then option2
  else { option2 with defaultValue := some (reflect.ValueOfInterface option2.value) }

/-- `storeDefaults`: the loop body on every option of the group, in order. -/
def storeDefaults (clear : reflect.Value → reflect.Value)
    (set : flags.multiTag → String → reflect.Value → reflect.Value) (g : flags.Group) :
    flags.Group :=
  g.setOptions (g.options.map (storeDefaultsOption clear set))

mutual
/-- Modelled from the spec: `option.clear()` is declared outside `group_private.go`; it
"clears the bound value to its zero/empty representation". The zero of a pointer is nil,
the zero of a struct has every field zero. A value that is not settable cannot be written
(the real call writes through `reflect` and does not return there): it is left as it is,
"no defaults are applied" to it. -/
def clearValue : reflect.Value → reflect.Value
  | .other true _ => .other true []
  | .other false contents => .other false contents
  | .Struct fields => .Struct (clearRecord fields)
  | .PtrToStruct _ => .PtrToStruct none
termination_by structural v => v
/-- The record with every field cleared. -/
def clearRecord : reflect.Record → reflect.Record
  | [] => []
  | fv :: rest => (fv.1, clearValue fv.2) :: clearRecord rest
termination_by structural r => r
end

/-- Modelled from the spec: `option.set(&d)` is declared outside `group_private.go`; it
"applies" a declared default value, "supporting multi-valued bindings such as sequences".
The contents of a value are the strings applied to it since it was cleared (a single-valued
binding shows the last of them, a multi-valued binding all of them). The text is applied
only to a settable value and only when its conversion to the type of the value succeeds,
which `converts` tells (the types of the values are outside the model); otherwise the value
is left as it is, and the error is ignored as `storeDefaults` ignores it. No text is applied
to a struct or to a pointer to a struct. -/
def setValue (converts : reflect.Value → String → Bool) (_tag : flags.multiTag) (d : String) :
    reflect.Value → reflect.Value
  | .other true contents =>
    if converts (.other true contents) d then .other true (contents ++ [d])
    else .other true contents
  | .other false contents => .other false contents
  | .Struct fields => .Struct fields
  | .PtrToStruct elem => .PtrToStruct elem

/-- The conversion of a text to a string, which always succeeds: the bound values of the
end-to-end record are strings and flags without declared default. -/
def convertsToString : reflect.Value → String → Bool := fun _ _ => true

/-! ## Specification-side definitions -/

/-- Specification wording of the four identifier spaces of `optionByName`: `opt` matches
`name` at tier 4 when `namematch(opt, name)` is true, at tier 3 when the field's structural
name equals `name`, at tier 2 when the declared long name equals `name`, at tier 1 when the
short identifier is present and equals `name`; there is no other tier. -/
def matchesAt (name : String) (namematch : Option (flags.Option → String → Bool)) (t : Nat)
    (opt : flags.Option) : Bool :=
  match t with
  | 4 =>
    match namematch with
    | some nm => nm opt name
    | none => false
  | 3 => decide (name = opt.field.Name)
  | 2 => decide (name = opt.LongName)
  | 1 => decide (opt.ShortName ≠ Char.ofNat 0 ∧ name = String.singleton opt.ShortName)
  | _ => false

/-- Specification wording: the highest priority tier matched by any option of the list, `0`
when no option matches at any tier. -/
def highestTier (name : String) (namematch : Option (flags.Option → String → Bool))
    (opts : List flags.Option) : Nat :=
  if opts.any (matchesAt name namematch 4) then 4
  else if opts.any (matchesAt name namematch 3) then 3
  else if opts.any (matchesAt name namematch 2) then 2
  else if opts.any (matchesAt name namematch 1) then 1
  else 0

/-- Specification wording: the field is one the walk does not skip, "externally visible"
and without a "no-flag" marker. -/
def isScanned (field : reflect.StructField) : Bool :=
  decide (field.PkgPath = "") && decide (field.Tag.Get "no-flag" = "")

/-- Specification wording: the field's type "is itself a record, or a pointer to a record
that is currently non-null". -/
def isNestedRecord : reflect.Value → Bool
  | .Struct _ => true
  | .PtrToStruct (some _) => true
  | .PtrToStruct none => false
  | .other _ _ => false

/-- Specification wording: the record nested in a value, if any. -/
def nestedRecord : reflect.Value → Option reflect.Record
  | .Struct fields => some fields
  | .PtrToStruct (some fields) => some fields
  | .PtrToStruct none => none
  | .other _ _ => none

/-- No field of the record that the walk does not skip is a nested record. -/
def isFlat (r : reflect.Record) : Prop :=
  ∀ fv ∈ r, isScanned fv.1 = true → isNestedRecord fv.2 = false

/-- The number of code points of the short-name text a field declares. -/
def shortNameLength (field : reflect.StructField) : Nat :=
  (field.Tag.Get "short").data.length

/-- The group `g1` has the descriptions and the data of `g`: it differs from `g` at most in
its options and its child groups. -/
def sameHeader (g g1 : flags.Group) : Prop :=
  g1.ShortDescription = g.ShortDescription ∧ g1.LongDescription = g.LongDescription ∧
    g1.data = g.data

/-- Specification wording of the option built for a field: `LongName`, `Description`,
`Default`, `OptionalValue`, `ValueName`, `DefaultMask`, `IniName` taken from the tag,
`ShortName` the single code point of the short-name text when it has exactly one (else
absent), `OptionalArgument` and `Required` true exactly when the `optional` and `required`
tag text is non-empty, bound to the field, its value and its tag, with no snapshot. -/
def optionOfField (field : reflect.StructField) (value : reflect.Value)
    (mtag : flags.multiTag) : flags.Option :=
  { Description := mtag.Get "description"
    ShortName :=
      if (mtag.Get "short").data.length = 1 then (mtag.Get "short").data.headD (Char.ofNat 0xFFFD)
      else Char.ofNat 0
    LongName := mtag.Get "long"
    Default := mtag.GetMany "default"
    OptionalArgument := decide (mtag.Get "optional" ≠ "")
    OptionalValue := mtag.GetMany "optional-value"
    Required := decide (mtag.Get "required" ≠ "")
    ValueName := mtag.Get "value-name"
    DefaultMask := mtag.Get "default-mask"
    IniName := mtag.Get "ini-name"
    field := field
    value := value
    tag := mtag
    defaultValue := none }

/-- The lowercased name of a group, `strings.ToLower(subg.ShortDescription)`. -/
def lowerName (lower : Char → Char) (c : flags.Group) : String :=
  strings.ToLower lower c.ShortDescription

mutual
/-- The relation of a group tree to the same tree with the `ShortDescription` of any of its
groups replaced by a string with the same lowercase form: the groups correspond one to one,
with equal lowercased names and equal other fields. -/
def sameLower (lower : Char → Char) : flags.Group → flags.Group → Prop
  | .mk sd ld d os gs, .mk sd1 ld1 d1 os1 gs1 =>
    strings.ToLower lower sd = strings.ToLower lower sd1 ∧ ld = ld1 ∧ d = d1 ∧ os = os1 ∧
      sameLowerList lower gs gs1
/-- The relation `sameLower` on lists of child groups, position by position. -/
def sameLowerList (lower : Char → Char) : List flags.Group → List flags.Group → Prop
  | [], [] => True
  | c :: cs, c1 :: cs1 => sameLower lower c c1 ∧ sameLowerList lower cs cs1
  | [], _ :: _ => False
  | _ :: _, [] => False
end

mutual
/-- Specification wording: the groups of the subtree rooted at a group in depth-first
pre-order, the group first, then the subtrees of its children in declaration order. -/
def preorder : flags.Group → List flags.Group
  | .mk sd ld d os gs => .mk sd ld d os gs :: preorderList gs
/-- The pre-order of the subtrees of a list of groups, one after the other. -/
def preorderList : List flags.Group → List flags.Group
  | [] => []
  | c :: cs => preorder c ++ preorderList cs
end

mutual
/-- The number of groups of the subtree rooted at a group. -/
def groupCount : flags.Group → Nat
  | .mk _ _ _ _ gs => 1 + groupCountList gs
/-- The number of groups of the subtrees rooted at the groups of a list. -/
def groupCountList : List flags.Group → Nat
  | [] => 0
  | c :: cs => groupCount c + groupCountList cs
end

/-- The bound value of an option after the clear step (taken when the option declares a
default) and the set steps of `storeDefaults`, one for each declared default, in order. -/
def defaultedValue (clear : reflect.Value → reflect.Value)
    (set : flags.multiTag → String → reflect.Value → reflect.Value)
    (option : flags.Option) : reflect.Value :=
  option.Default.foldl (fun v d => set option.tag d v)
    (if option.Default.length > 0 then clear option.value else option.value)

/-- The contents of a value of a kind other than struct and pointer to struct, with what
`CanSet()` reports; `none` for a struct or a pointer to a struct. -/
def valueContents : reflect.Value → Option (Bool × List String)
  | .other canSet contents => some (canSet, contents)
  | .Struct _ => none
  | .PtrToStruct _ => none

/-- Specification wording: the field declares a long or a short name. -/
def declaresName (field : reflect.StructField) : Bool :=
  !(decide (field.Tag.Get "long" = "") && decide (field.Tag.Get "short" = ""))

/-- Specification wording: one option for each field of the record that is not skipped and
declares a long or a short name, in field declaration order. -/
def optionsOfFields (r : reflect.Record) : List flags.Option :=
  (r.filter (fun fv => isScanned fv.1 && declaresName fv.1)).map
    (fun fv => optionOfField fv.1 fv.2 fv.1.Tag)

/-- Specification wording: a chain of groups below `g`, each a child of the one before,
the first a child of `g`. -/
def isChildChain : flags.Group → List flags.Group → Prop
  | _, [] => True
  | g, c :: cs => c ∈ g.groups ∧ isChildChain c cs

/-- Specification wording: the lowercased `ShortDescription`s of the groups of a chain
joined by `.`. -/
def dottedNames (lower : Char → Char) : List flags.Group → String
  | [] => ""
  | c :: cs =>
    match cs with
    | [] => lowerName lower c
    | _ :: _ => lowerName lower c ++ "." ++ dottedNames lower cs

mutual
/-- Specification wording: the field walk of the record reaches a field that declares
short-name text of two or more code points. The walk passes over the fields that are
skipped, dives into the first field that is not skipped and is a nested record, without
coming back to the fields declared after it, and otherwise goes on to the next field. -/
def reachesLongShortName : reflect.Record → Bool
  | [] => false
  | fv :: rest =>
    if isScanned fv.1 then
      match reachesLongShortNameIn fv.2 with
      | some b => b
      | none => decide (1 < shortNameLength fv.1) || reachesLongShortName rest
    else reachesLongShortName rest
termination_by structural r => r
/-- Whether the walk of the record nested in a value reaches such a field; `none` when the
value is not a nested record. -/
def reachesLongShortNameIn : reflect.Value → Option Bool
  | .Struct fields => some (reachesLongShortName fields)
  | .PtrToStruct (some fields) => some (reachesLongShortName fields)
  | .PtrToStruct none => none
  | .other _ _ => none
termination_by structural v => v
end

/-! ## Example inputs -/

/-- A custom matcher: alias matching on the ini name. -/
def exIniMatch : flags.Option → String → Bool := fun opt name => opt.IniName == name

/-- An option of field `Alpha` with long name and ini name `Name`. -/
def exOptAlpha : flags.Option :=
  { Description := "", ShortName := Char.ofNat 0, LongName := "Name", Default := [],
    OptionalArgument := false, OptionalValue := [], Required := false, ValueName := "",
    DefaultMask := "", IniName := "Name",
    field := ⟨"Alpha", "", ⟨[("long", ["Name"]), ("ini-name", ["Name"])]⟩⟩,
    value := .other true [],
    tag := ⟨[("long", ["Name"]), ("ini-name", ["Name"])]⟩, defaultValue := none }

/-- An option of field `Name` with long name `beta` and ini name `Name`. -/
def exOptName : flags.Option :=
  { Description := "", ShortName := Char.ofNat 0, LongName := "beta", Default := [],
    OptionalArgument := false, OptionalValue := [], Required := false, ValueName := "",
    DefaultMask := "", IniName := "Name",
    field := ⟨"Name", "", ⟨[("long", ["beta"]), ("ini-name", ["Name"])]⟩⟩,
    value := .other true [],
    tag := ⟨[("long", ["beta"]), ("ini-name", ["Name"])]⟩, defaultValue := none }

/-- A group whose options are `exOptAlpha`, `exOptName`, in that order. -/
def exGroupAlphaName : flags.Group := .mk "" "" [] [exOptAlpha, exOptName] []

/-- A field of a kind that is neither struct nor pointer to struct, exported, with the given
name and parsed tag. -/
def exField (name : String) (tag : List (String × List String)) :
    reflect.StructField × reflect.Value :=
  (⟨name, "", ⟨tag⟩⟩, .other true [])

/-- The record `struct { Name string "long:user"; Owner string "long:Name" }`. -/
def exRecNameOwner : reflect.Record :=
  [exField "Name" [("long", ["user"])], exField "Owner" [("long", ["Name"])]]

/-- The record `struct { Verbose bool "short:v"; Mode string "short:xy" }`. -/
def exRecShortTooLong : reflect.Record :=
  [exField "Verbose" [("short", ["v"])], exField "Mode" [("short", ["xy"])]]

/-- The record `struct { Null bool "short:\x00" }`: the short-name text is the one code
point U+0000. -/
def exRecShortNul : reflect.Record :=
  [exField "Null" [("short", ["\x00"])]]

/-- The record `struct { Verbose bool "short:v" }`. -/
def exRecVerbose : reflect.Record :=
  [exField "Verbose" [("short", ["v"])]]

/-- The record `struct { sub struct { X string "long:x" } "group:sub" }`, whose only field
is not exported. -/
def exRecHiddenSub : reflect.Record :=
  [(⟨"sub", "main", ⟨[("group", ["sub"])]⟩⟩, .Struct [exField "X" [("long", ["x"])]])]

/-- The end-to-end record of the specification: `Verbose bool` with `short:v`, `Name string`
with `long:name default:anon`, and the nested `Sub struct { X string "long:x" }` with
`group:sub`. -/
def exRecEndToEnd : reflect.Record :=
  [exField "Verbose" [("short", ["v"]), ("description", ["enable verbose"])],
    exField "Name" [("long", ["name"]), ("default", ["anon"])],
    (⟨"Sub", "", ⟨[("group", ["sub"]), ("description", ["sub options"])]⟩⟩,
      .Struct [exField "X" [("long", ["x"])]])]

/-- The record `struct { Verbose bool "short:v"; Inner struct { X string "long:x" };
Tail string "long:tail" }`: a nested record without group declaration, followed by a
field. -/
def exRecInnerTail : reflect.Record :=
  [exField "Verbose" [("short", ["v"])],
    (⟨"Inner", "", ⟨[]⟩⟩, .Struct [exField "X" [("long", ["x"])]]),
    exField "Tail" [("long", ["tail"])]]

/-- A group named `name` with long description `ld` and the given children. -/
def exGroup (name : String) (ld : String) (children : List flags.Group) : flags.Group :=
  .mk name ld [] [] children

/-- A tree whose first child is named `a.b` and whose second child, named `a`, has a child
named `b`. -/
def exTreeDotted : flags.Group :=
  exGroup "root" "" [exGroup "a.b" "first" [], exGroup "a" "second" [exGroup "b" "third" []]]

/-- A tree whose only child, named `a`, has a child named `b`, which has a child `c`. -/
def exTreeAB : flags.Group :=
  exGroup "root" "" [exGroup "a" "" [exGroup "b" "" [exGroup "c" "" []]], exGroup "d" "" []]

/-- The tree `exTreeAB` with the names `a`, `b` and `d` written in upper case. -/
def exTreeABUpper : flags.Group :=
  exGroup "root" "" [exGroup "A" "" [exGroup "B" "" [exGroup "c" "" []]], exGroup "D" "" []]

/-- An option of field `Name` with the default `anon`, bound to a value that is not
settable and holds `x`. -/
def exOptNotSettable : flags.Option :=
  { Description := "", ShortName := Char.ofNat 0, LongName := "name", Default := ["anon"],
    OptionalArgument := false, OptionalValue := [], Required := false, ValueName := "",
    DefaultMask := "", IniName := "",
    field := ⟨"Name", "", ⟨[("long", ["name"]), ("default", ["anon"])]⟩⟩,
    value := .other false ["x"],
    tag := ⟨[("long", ["name"]), ("default", ["anon"])]⟩, defaultValue := none }

/-- A group whose options are `exOptNotSettable` and `exOptAlpha`. -/
def exGroupNotSettable : flags.Group := .mk "" "" [] [exOptNotSettable, exOptAlpha] []

/-- The record `struct { inner struct { X string "long:x" } }`, whose only field is a
nested record without group declaration and is not exported. -/
def exRecHiddenInner : reflect.Record :=
  [(⟨"inner", "main", ⟨[]⟩⟩, .Struct [exField "X" [("long", ["x"])]])]

/-- The record `struct { mode string "short:xy"; Verbose bool "short:v" }`, whose first
field is not exported. -/
def exRecHiddenMode : reflect.Record :=
  [(⟨"mode", "main", ⟨[("short", ["xy"])]⟩⟩, .other true []),
    exField "Verbose" [("short", ["v"])]]

/-- The record `struct { Verbose bool "short:v"; Sub struct { Mode string "short:xy" }
"group:sub" }`: the nested record of the sub-group has a short name of two characters. -/
def exRecSubTooLong : reflect.Record :=
  [exField "Verbose" [("short", ["v"])],
    (⟨"Sub", "", ⟨[("group", ["sub"])]⟩⟩, .Struct [exField "Mode" [("short", ["xy"])]])]

/-- The record `struct { Inner struct { X string "long:x" }; Mode string "short:xy" }`: a
short name of two characters declared after a nested record. -/
def exRecInnerThenLong : reflect.Record :=
  [(⟨"Inner", "", ⟨[]⟩⟩, .Struct [exField "X" [("long", ["x"])]]),
    exField "Mode" [("short", ["xy"])]]

/-- The record `struct { Mode string "short:xy"; Inner struct { X string "long:x" } }`: a
short name of two characters declared before a nested record. -/
def exRecLongThenInner : reflect.Record :=
  [exField "Mode" [("short", ["xy"])],
    (⟨"Inner", "", ⟨[]⟩⟩, .Struct [exField "X" [("long", ["x"])]])]

/-! ## `optionByName`: the loop invariant -/

theorem find_matchesAt_none (name : String) (nm : Option (flags.Option → String → Bool))
    (t : Nat) (l : List flags.Option) (h : l.any (matchesAt name nm t) = false) :
    l.find? (matchesAt name nm t) = none := by
  rw [List.find?_eq_none]
  intro x hx hm
  have : l.any (matchesAt name nm t) = true := List.any_eq_true.mpr ⟨x, hx, hm⟩
  rw [h] at this
  exact Bool.noConfusion this

theorem find_matchesAt_or (name : String) (nm : Option (flags.Option → String → Bool))
    (t : Nat) (l : List flags.Option) (x : Option flags.Option)
    (h : l.any (matchesAt name nm t) = true) :
    (l.find? (matchesAt name nm t)).or x = l.find? (matchesAt name nm t) := by
  obtain ⟨y, hy, hm⟩ := List.any_eq_true.mp h
  cases hf : l.find? (matchesAt name nm t) with
  | some z => rfl
  | none =>
    rw [List.find?_eq_none] at hf
    exact absurd hm (hf y hy)

theorem optionByNameStep_eq (name : String) (nm : Option (flags.Option → String → Bool))
    (st : optionByNameState) (o : flags.Option) :
    optionByNameStep name nm st o =
      if matchesAt name nm 4 o = true ∧ st.1 < 4 then (4, some o)
      else if matchesAt name nm 3 o = true ∧ st.1 < 3 then (3, some o)
      else if matchesAt name nm 2 o = true ∧ st.1 < 2 then (2, some o)
      else if matchesAt name nm 1 o = true ∧ st.1 < 1 then (1, some o)
      else st := by
  obtain ⟨p, r⟩ := st
  simp only [optionByNameStep, matchesAt, Bool.and_eq_true, decide_eq_true_eq]
  split_ifs <;> first | rfl | simp_all

theorem optionByName_invariant (name : String) (nm : Option (flags.Option → String → Bool))
    (l : List flags.Option) :
    l.foldl (optionByNameStep name nm) (0, none) =
      (highestTier name nm l, l.find? (matchesAt name nm (highestTier name nm l))) := by
  induction l using List.reverseRecOn with
  | nil => rfl
  | append_singleton pre o ih =>
    rw [List.foldl_append, ih]
    simp only [List.foldl, optionByNameStep_eq]
    have hn := find_matchesAt_none name nm
    have hs := find_matchesAt_or name nm
    have h0 : ∀ x : flags.Option, matchesAt name nm 0 x = false := fun _ => rfl
    cases b4 : pre.any (matchesAt name nm 4) <;> cases b3 : pre.any (matchesAt name nm 3) <;>
    cases b2 : pre.any (matchesAt name nm 2) <;> cases b1 : pre.any (matchesAt name nm 1) <;>
    cases a4 : matchesAt name nm 4 o <;> cases a3 : matchesAt name nm 3 o <;>
    cases a2 : matchesAt name nm 2 o <;> cases a1 : matchesAt name nm 1 o <;>
    simp [highestTier, List.any_append, List.find?_append, hs, hn, h0, b4, b3, b2, b1,
      a4, a3, a2, a1]

theorem highestTier_eq_zero (name : String) (nm : Option (flags.Option → String → Bool))
    (l : List flags.Option) :
    highestTier name nm l = 0 ↔ ∀ o ∈ l, ∀ t, matchesAt name nm t o = false := by
  constructor
  · intro h o ho t
    cases hm : matchesAt name nm t o with
    | false => rfl
    | true =>
      exfalso
      have ht : t = 1 ∨ t = 2 ∨ t = 3 ∨ t = 4 := by
        match t, hm with
        | 1, _ => simp
        | 2, _ => simp
        | 3, _ => simp
        | 4, _ => simp
      have hany : l.any (matchesAt name nm t) = true := List.any_eq_true.mpr ⟨o, ho, hm⟩
      unfold highestTier at h
      rcases ht with rfl | rfl | rfl | rfl <;> split_ifs at h
  · intro h
    have hf : ∀ t, l.any (matchesAt name nm t) = false := by
      intro t
      cases hb : l.any (matchesAt name nm t) with
      | false => rfl
      | true =>
        obtain ⟨o, ho, hm⟩ := List.any_eq_true.mp hb
        rw [h o ho t] at hm
        exact Bool.noConfusion hm
    simp [highestTier, hf]

theorem highestTier_any (name : String) (nm : Option (flags.Option → String → Bool))
    (l : List flags.Option) (h : highestTier name nm l ≠ 0) :
    l.any (matchesAt name nm (highestTier name nm l)) = true := by
  unfold highestTier at h ⊢
  split_ifs at h ⊢ <;> simp_all

/-- C1: `optionByName` returns the first option, in list order, that matches at the highest
tier matched by any option of the group, and it returns absent exactly when no option
matches at any tier. -/
theorem optionByName_first_at_highest_tier (g : flags.Group) (name : String)
    (namematch : Option (flags.Option → String → Bool)) :
    optionByName g name namematch =
        g.options.find? (matchesAt name namematch (highestTier name namematch g.options)) ∧
      (optionByName g name namematch = none ↔
        ∀ o ∈ g.options, ∀ t, matchesAt name namematch t o = false) := by
  have hres : optionByName g name namematch =
      g.options.find? (matchesAt name namematch (highestTier name namematch g.options)) := by
    unfold optionByName optionByNameLoop
    rw [optionByName_invariant]
  refine ⟨hres, ?_⟩
  rw [hres, ← highestTier_eq_zero]
  constructor
  · intro hnone
    by_contra hne
    have hany := highestTier_any name namematch g.options hne
    obtain ⟨o, ho, hm⟩ := List.any_eq_true.mp hany
    rw [List.find?_eq_none] at hnone
    exact hnone o ho hm
  · intro hz
    rw [hz]
    exact find_matchesAt_none name namematch 0 _ (by simp [matchesAt])

/-- C2 fails as stated: in `exGroupAlphaName` the option `exOptName` has field name `Name`
and the custom matcher accepts it for `Name`, yet `optionByName` returns the earlier option
`exOptAlpha`, which the custom matcher accepts too. -/
theorem optionByName_custom_and_field_counterexample :
    exOptName ∈ exGroupAlphaName.options ∧ exOptName.field.Name = "Name" ∧
      exIniMatch exOptName "Name" = true ∧
      optionByName exGroupAlphaName "Name" (some exIniMatch) = some exOptAlpha ∧
      optionByName exGroupAlphaName "Name" (some exIniMatch) ≠ some exOptName := by
  refine ⟨?_, by decide, by decide, rfl, ?_⟩
  · simp [exGroupAlphaName, flags.Group.options]
  · intro h
    have h1 : (optionByName exGroupAlphaName "Name" (some exIniMatch)).map (·.LongName) =
        (some exOptName).map (·.LongName) := by rw [h]
    revert h1
    decide

/-- C2, amended: when `namematch(o, name)` is true for the option `o` of the group and false
for every option listed before `o`, `optionByName(name, namematch)` returns `o`, whatever
the field names and long names of the options are. -/
theorem optionByName_first_custom_match (g : flags.Group) (name : String)
    (namematch : flags.Option → String → Bool) (pre post : List flags.Option)
    (o : flags.Option) (hsplit : g.options = pre ++ o :: post)
    (hpre : ∀ p ∈ pre, namematch p name = false) (ho : namematch o name = true) :
    optionByName g name (some namematch) = some o := by
  have hany : g.options.any (matchesAt name (some namematch) 4) = true := by
    rw [hsplit]
    simp [matchesAt, ho]
  have hT : highestTier name (some namematch) g.options = 4 := by
    simp [highestTier, hany]
  unfold optionByName optionByNameLoop
  rw [optionByName_invariant, hT, hsplit, List.find?_append]
  have hnone : pre.find? (matchesAt name (some namematch) 4) = none := by
    rw [List.find?_eq_none]
    intro x hx
    simp [matchesAt, hpre x hx]
  rw [hnone]
  simp [matchesAt, ho]

/-- Witness of `optionByName_first_custom_match`: `exOptAlpha` in `exGroupAlphaName`. -/
theorem optionByName_first_custom_match_witness :
    optionByName exGroupAlphaName "Name" (some exIniMatch) = some exOptAlpha :=
  optionByName_first_custom_match exGroupAlphaName "Name" exIniMatch [] [exOptName] exOptAlpha
    rfl (by simp) (by decide)

/-- C3 fails as stated: scanning `exRecNameOwner` gives two options that declare only a long
name, of fields `Name` (long name `user`) and `Owner` (long name `Name`); `optionByName`
called with `Name`, the long name of the second, returns the first, whose field is `Name`. -/
theorem optionByName_long_name_counterexample :
    (scan 1 (newGroup "app" "" exRecNameOwner)).map
        (fun r => (r.1, r.2.options.map (fun o => (o.field.Name, o.LongName, o.ShortName)))) =
      some (none, [("Name", "user", Char.ofNat 0), ("Owner", "Name", Char.ofNat 0)]) ∧
    (scan 1 (newGroup "app" "" exRecNameOwner)).map
        (fun r => (optionByName r.2 "Name" none).map (fun o => (o.field.Name, o.LongName))) =
      some (some ("Name", "user")) := by
  constructor <;> decide

/-- C3, amended: for an option `o` of a group with no short identifier, `optionByName` with no
custom matcher returns `o` when called with `o`'s long name, provided no option of the group
has that name as its field name and no option listed before `o` has it as its long name; it
returns `o` when called with `o`'s field name, provided no option listed before `o` has that
field name; and no call of `optionByName` ends with `o` selected at the short-identifier
tier. -/
theorem optionByName_long_only (g : flags.Group) (pre post : List flags.Option)
    (o : flags.Option) (hsplit : g.options = pre ++ o :: post)
    (hshort : o.ShortName = Char.ofNat 0) :
    ((∀ p ∈ g.options, p.field.Name ≠ o.LongName) → (∀ p ∈ pre, p.LongName ≠ o.LongName) →
        optionByName g o.LongName none = some o) ∧
      ((∀ p ∈ pre, p.field.Name ≠ o.field.Name) →
        optionByName g o.field.Name none = some o) ∧
      ∀ (name : String) (namematch : Option (flags.Option → String → Bool)),
        optionByNameLoop g name namematch ≠ (1, some o) := by
  refine ⟨?_, ?_, ?_⟩
  · intro hfield hlong
    have h4 : g.options.any (matchesAt o.LongName none 4) = false := by
      simp [matchesAt]
    have h3 : g.options.any (matchesAt o.LongName none 3) = false := by
      rw [List.any_eq_false]
      intro x hx
      simpa [matchesAt] using fun h => hfield x hx h.symm
    have h2 : g.options.any (matchesAt o.LongName none 2) = true := by
      rw [hsplit]
      simp [matchesAt]
    have hT : highestTier o.LongName none g.options = 2 := by
      simp [highestTier, h4, h3, h2]
    unfold optionByName optionByNameLoop
    rw [optionByName_invariant, hT, hsplit, List.find?_append]
    have hnone : pre.find? (matchesAt o.LongName none 2) = none := by
      rw [List.find?_eq_none]
      intro x hx
      simpa [matchesAt] using fun h => hlong x hx h.symm
    rw [hnone]
    simp [matchesAt]
  · intro hfield
    have h4 : g.options.any (matchesAt o.field.Name none 4) = false := by
      simp [matchesAt]
    have h3 : g.options.any (matchesAt o.field.Name none 3) = true := by
      rw [hsplit]
      simp [matchesAt]
    have hT : highestTier o.field.Name none g.options = 3 := by
      simp [highestTier, h4, h3]
    unfold optionByName optionByNameLoop
    rw [optionByName_invariant, hT, hsplit, List.find?_append]
    have hnone : pre.find? (matchesAt o.field.Name none 3) = none := by
      rw [List.find?_eq_none]
      intro x hx
      simpa [matchesAt] using fun h => hfield x hx h.symm
    rw [hnone]
    simp [matchesAt]
  · intro name namematch hloop
    unfold optionByNameLoop at hloop
    rw [optionByName_invariant] at hloop
    have hT : highestTier name namematch g.options = 1 := congrArg Prod.fst hloop
    have hf : g.options.find? (matchesAt name namematch 1) = some o := by
      rw [← hT]
      exact congrArg Prod.snd hloop
    have hm := List.find?_some hf
    simp [matchesAt, hshort] at hm

/-- Witness of `optionByName_long_only`: `exOptName`, the second option of
`exGroupAlphaName`, is found by its long name `beta` and by its field name `Name`. -/
theorem optionByName_long_only_witness :
    optionByName exGroupAlphaName "beta" none = some exOptName ∧
      optionByName exGroupAlphaName "Name" none = some exOptName :=
  have h := optionByName_long_only exGroupAlphaName [exOptAlpha] [] exOptName rfl rfl
  ⟨h.1 (by decide) (by decide), h.2.1 (by decide)⟩

/-! ## The field walk on fields that are not dived into -/

theorem scanStructDive_eq_none (handler : scanHandler) (field : reflect.StructField)
    (v : reflect.Value) (g : flags.Group) (h : isNestedRecord v = false) :
    scanStructDive handler field v g = none := by
  cases v with
  | other c cs => rfl
  | Struct fs => simp [isNestedRecord] at h
  | PtrToStruct e =>
    cases e with
    | none => rfl
    | some fs => simp [isNestedRecord] at h

theorem scanStructDive_eq_some (handler : scanHandler) (field : reflect.StructField)
    (v : reflect.Value) (fs : reflect.Record) (g : flags.Group) (h : nestedRecord v = some fs) :
    scanStructDive handler field v g = some (scanStruct handler fs (some field) g) := by
  cases v with
  | other c cs => simp [nestedRecord] at h
  | Struct fs1 =>
    simp only [nestedRecord, Option.some.injEq] at h
    subst h
    rfl
  | PtrToStruct e =>
    cases e with
    | none => simp [nestedRecord] at h
    | some fs1 =>
      simp only [nestedRecord, Option.some.injEq] at h
      subst h
      rfl

theorem scanStructWalk_skip (handler : scanHandler) (fv : reflect.StructField × reflect.Value)
    (rest : reflect.Record) (g : flags.Group) (h : isScanned fv.1 = false) :
    scanStructWalk handler (fv :: rest) g = scanStructWalk handler rest g := by
  rw [scanStructWalk]
  simp only [isScanned, Bool.and_eq_false_iff, decide_eq_false_iff_not] at h
  by_cases hp : fv.1.PkgPath = ""
  · have hn : fv.1.Tag.Get "no-flag" ≠ "" := by
      rcases h with h | h
      · exact absurd hp h
      · exact h
    simp [hp, hn]
  · simp [hp]

theorem scanStructWalk_leaf (handler : scanHandler) (fv : reflect.StructField × reflect.Value)
    (rest : reflect.Record) (g : flags.Group) (h : isScanned fv.1 = true)
    (hv : isNestedRecord fv.2 = false) :
    scanStructWalk handler (fv :: rest) g =
      match scanStructOption fv.1 fv.2 fv.1.Tag g with
      | (some err, g1) => some (some err, g1)
      | (none, g1) => scanStructWalk handler rest g1 := by
  rw [scanStructWalk]
  simp only [isScanned, Bool.and_eq_true, decide_eq_true_eq] at h
  simp [h.1, h.2, scanStructDive_eq_none handler fv.1 fv.2 g hv]

theorem scanStructWalk_dive (handler : scanHandler) (fv : reflect.StructField × reflect.Value)
    (rest : reflect.Record) (fs : reflect.Record) (g : flags.Group)
    (h : isScanned fv.1 = true) (hv : nestedRecord fv.2 = some fs) :
    scanStructWalk handler (fv :: rest) g = scanStruct handler fs (some fv.1) g := by
  rw [scanStructWalk]
  simp only [isScanned, Bool.and_eq_true, decide_eq_true_eq] at h
  simp [h.1, h.2, scanStructDive_eq_some handler fv.1 fv.2 fs g hv]

theorem isFlat_cons (fv : reflect.StructField × reflect.Value) (rest : reflect.Record)
    (h : isFlat (fv :: rest)) :
    (isScanned fv.1 = true → isNestedRecord fv.2 = false) ∧ isFlat rest :=
  ⟨h fv (List.mem_cons_self _ _), fun x hx => h x (List.mem_cons_of_mem _ hx)⟩

theorem scanStructOption_error (field : reflect.StructField) (v : reflect.Value)
    (g : flags.Group) :
    (scanStructOption field v field.Tag g).1 =
      if 1 < shortNameLength field then some flags.error.ErrShortNameTooLong else none := by
  unfold scanStructOption shortNameLength utf8.RuneCountInString
  by_cases h0 : field.Tag.Get "long" = "" ∧ field.Tag.Get "short" = ""
  · have : ¬ 1 < (field.Tag.Get "short").data.length := by
      rw [h0.2]
      decide
    rw [if_pos h0, if_neg this]
  · by_cases h1 : 1 < (field.Tag.Get "short").data.length
    · rw [if_neg h0]
      simp only [gt_iff_lt, h1, if_true]
    · rw [if_neg h0]
      simp only [gt_iff_lt, h1, if_false]

theorem scanStructWalk_append (handler : scanHandler) (pre tail : reflect.Record)
    (g : flags.Group) (hflat : isFlat pre) :
    scanStructWalk handler (pre ++ tail) g =
      match scanStructWalk handler pre g with
      | some (none, g1) => scanStructWalk handler tail g1
      | r => r := by
  induction pre generalizing g with
  | nil => simp [scanStructWalk]
  | cons fv pre ih =>
    obtain ⟨hfv, hrest⟩ := isFlat_cons fv pre hflat
    rw [List.cons_append]
    cases hs : isScanned fv.1 with
    | false =>
      rw [scanStructWalk_skip handler fv _ g hs, scanStructWalk_skip handler fv _ g hs]
      exact ih g hrest
    | true =>
      rw [scanStructWalk_leaf handler fv _ g hs (hfv hs),
        scanStructWalk_leaf handler fv _ g hs (hfv hs)]
      rcases hopt : scanStructOption fv.1 fv.2 fv.1.Tag g with ⟨_ | err, g1⟩
      · exact ih g1 hrest
      · rfl

theorem scanStructWalk_flat_error (handler : scanHandler) (r : reflect.Record)
    (g : flags.Group) (hflat : isFlat r) :
    ((∀ fv ∈ r, isScanned fv.1 = true → shortNameLength fv.1 ≤ 1) →
        ∃ g1, scanStructWalk handler r g = some (none, g1)) ∧
      ((∃ fv ∈ r, isScanned fv.1 = true ∧ 2 ≤ shortNameLength fv.1) →
        ∃ g1, scanStructWalk handler r g =
          some (some flags.error.ErrShortNameTooLong, g1)) := by
  induction r generalizing g with
  | nil =>
    refine ⟨fun _ => ⟨g, by simp [scanStructWalk]⟩, ?_⟩
    rintro ⟨fv, hfv, _⟩
    simp at hfv
  | cons fv r ih =>
    obtain ⟨hfv, hrest⟩ := isFlat_cons fv r hflat
    cases hs : isScanned fv.1 with
    | false =>
      rw [scanStructWalk_skip handler fv _ g hs]
      refine ⟨fun hall => (ih g hrest).1 fun x hx => hall x (List.mem_cons_of_mem _ hx), ?_⟩
      rintro ⟨x, hx, hxs, hxl⟩
      rcases List.mem_cons.mp hx with rfl | hx
      · rw [hs] at hxs
        exact Bool.noConfusion hxs
      · exact (ih g hrest).2 ⟨x, hx, hxs, hxl⟩
    | true =>
      rw [scanStructWalk_leaf handler fv _ g hs (hfv hs)]
      have herr := scanStructOption_error fv.1 fv.2 g
      rcases hopt : scanStructOption fv.1 fv.2 fv.1.Tag g with ⟨_ | err, g1⟩
      · rw [hopt] at herr
        have hle : shortNameLength fv.1 ≤ 1 := by
          by_contra hc
          rw [if_pos (by omega)] at herr
          exact Option.noConfusion herr
        refine ⟨fun hall => (ih g1 hrest).1 fun x hx => hall x (List.mem_cons_of_mem _ hx), ?_⟩
        rintro ⟨x, hx, hxs, hxl⟩
        rcases List.mem_cons.mp hx with rfl | hx
        · omega
        · exact (ih g1 hrest).2 ⟨x, hx, hxs, hxl⟩
      · rw [hopt] at herr
        have hgt : 1 < shortNameLength fv.1 := by
          by_contra hc
          rw [if_neg hc] at herr
          exact Option.noConfusion herr
        rw [if_pos hgt] at herr
        simp only [Option.some.injEq] at herr
        subst herr
        refine ⟨fun hall => ?_, fun _ => ⟨g1, rfl⟩⟩
        have := hall fv (List.mem_cons_self _ _) hs
        omega

/-! ## Short names -/

/-- C5, the code at the failing input: scanning `exRecShortNul`, whose only field declares
the short-name text U+0000 and no long name, succeeds and appends one option, whose
`LongName` is empty and whose `ShortName` is the rune `0`, that is, absent. -/
theorem scan_short_name_nul :
    (scan 1 (newGroup "app" "" exRecShortNul)).map
        (fun r => (r.1, r.2.options.map (fun o => (o.field.Name, o.LongName, o.ShortName)))) =
      some (none, [("Null", "", Char.ofNat 0)]) := by
  decide

/-! ## Nested records -/

/-- C6: when the walk of a record reaches its first field that is not skipped and is a
nested record (the fields `pre` before it are not dived into and are walked without error,
leaving the group `g1`), the result of the walk, and of `scanStruct` on the record, is
exactly the result of `scanStruct` on the nested record; the fields `rest` declared after it
play no part: the result is the same with any other fields `rest1` in their place. -/
theorem scanStruct_returns_first_nested (handler : scanHandler) (pre rest : reflect.Record)
    (fv : reflect.StructField × reflect.Value) (fs : reflect.Record) (g g1 : flags.Group)
    (hpre : isFlat pre) (hwalk : scanStructWalk handler pre g = some (none, g1))
    (hscanned : isScanned fv.1 = true) (hnested : nestedRecord fv.2 = some fs) :
    scanStructWalk handler (pre ++ fv :: rest) g = scanStruct handler fs (some fv.1) g1 ∧
      scanStruct handler (pre ++ fv :: rest) none g =
        scanStruct handler fs (some fv.1) g1 ∧
      ∀ rest1 : reflect.Record,
        scanStruct handler (pre ++ fv :: rest1) none g =
          scanStruct handler (pre ++ fv :: rest) none g := by
  have h : ∀ tail : reflect.Record, scanStructWalk handler (pre ++ fv :: tail) g =
      scanStruct handler fs (some fv.1) g1 := by
    intro tail
    rw [scanStructWalk_append handler pre _ g hpre, hwalk]
    exact scanStructWalk_dive handler fv tail fs g1 hscanned hnested
  exact ⟨h rest, h rest, fun rest1 => (h rest1).trans (h rest).symm⟩

/-! ## Induction over a record and the records nested in it -/

theorem nestedRecord_sizeOf (v : reflect.Value) (fs : reflect.Record)
    (h : nestedRecord v = some fs) : sizeOf fs < sizeOf v := by
  cases v with
  | other c cs => simp [nestedRecord] at h
  | Struct fs1 =>
    simp only [nestedRecord, Option.some.injEq] at h
    subst h
    simp
  | PtrToStruct e =>
    cases e with
    | none => simp [nestedRecord] at h
    | some fs1 =>
      simp only [nestedRecord, Option.some.injEq] at h
      subst h
      simp
      omega

theorem record_induction (motive : reflect.Record → Prop) (hnil : motive [])
    (hcons : ∀ (fv : reflect.StructField × reflect.Value) (rest : reflect.Record),
      (∀ fs, nestedRecord fv.2 = some fs → motive fs) → motive rest → motive (fv :: rest))
    (r : reflect.Record) : motive r := by
  have key : ∀ n (r : reflect.Record), sizeOf r < n → motive r := by
    intro n
    induction n with
    | zero => intro r h; omega
    | succ n ih =>
      intro r h
      cases r with
      | nil => exact hnil
      | cons fv rest =>
        have hsz : sizeOf (fv :: rest) = 1 + sizeOf fv + sizeOf rest := by simp
        have hfv : sizeOf fv = 1 + sizeOf fv.1 + sizeOf fv.2 := by
          cases fv
          simp
        refine hcons fv rest (fun fs hfs => ih fs ?_) (ih rest (by omega))
        have := nestedRecord_sizeOf fv.2 fs hfs
        omega
  exact key _ r (Nat.lt_succ_self _)

/-! ## What a scan leaves unchanged -/

theorem isNestedRecord_eq_false (v : reflect.Value) (h : nestedRecord v = none) :
    isNestedRecord v = false := by
  cases v with
  | other c cs => rfl
  | Struct fs => simp [nestedRecord] at h
  | PtrToStruct e =>
    cases e with
    | none => rfl
    | some fs => simp [nestedRecord] at h

theorem nestedRecord_eq_none (v : reflect.Value) (h : isNestedRecord v = false) :
    nestedRecord v = none := by
  cases v with
  | other c cs => rfl
  | Struct fs => simp [isNestedRecord] at h
  | PtrToStruct e =>
    cases e with
    | none => rfl
    | some fs => simp [isNestedRecord] at h

theorem setOptions_self_append_nil (g : flags.Group) : g.setOptions (g.options ++ []) = g := by
  cases g
  simp [flags.Group.setOptions, flags.Group.options]

theorem scanStructOption_eq (field : reflect.StructField) (v : reflect.Value)
    (mtag : flags.multiTag) (g : flags.Group) :
    scanStructOption field v mtag g =
      if mtag.Get "long" = "" ∧ mtag.Get "short" = "" then (none, g)
      else if 1 < (mtag.Get "short").data.length then
        (some flags.error.ErrShortNameTooLong, g)
      else (none, g.setOptions (g.options ++ [optionOfField field v mtag])) := rfl

theorem scanStructOption_group (field : reflect.StructField) (v : reflect.Value)
    (mtag : flags.multiTag) (g : flags.Group) :
    ∃ os, (scanStructOption field v mtag g).2 = g.setOptions (g.options ++ os) := by
  rw [scanStructOption_eq]
  by_cases h0 : mtag.Get "long" = "" ∧ mtag.Get "short" = ""
  · exact ⟨[], by rw [if_pos h0, setOptions_self_append_nil]⟩
  · rw [if_neg h0]
    by_cases h1 : 1 < (mtag.Get "short").data.length
    · exact ⟨[], by rw [if_pos h1, setOptions_self_append_nil]⟩
    · exact ⟨[optionOfField field v mtag], by rw [if_neg h1]⟩

theorem scanStructWalk_rel (R : flags.Group → flags.Group → Prop) (hrefl : ∀ g, R g g)
    (htrans : ∀ g1 g2 g3, R g1 g2 → R g2 g3 → R g1 g3)
    (hopt : ∀ g os, R g (g.setOptions os)) (handler : scanHandler)
    (hh : ∀ rv sf g res g1, handler rv sf g = some (res, g1) → R g g1) (r : reflect.Record) :
    ∀ g e g1, scanStructWalk handler r g = some (e, g1) → R g g1 := by
  induction r using record_induction with
  | hnil =>
    intro g e g1 h
    simp only [scanStructWalk, Option.some.injEq, Prod.mk.injEq] at h
    rw [← h.2]
    exact hrefl g
  | hcons fv rest ihn ihr =>
    intro g e g1 h
    cases hs : isScanned fv.1 with
    | false =>
      rw [scanStructWalk_skip handler fv _ g hs] at h
      exact ihr g e g1 h
    | true =>
      cases hn : nestedRecord fv.2 with
      | some fs =>
        rw [scanStructWalk_dive handler fv rest fs g hs hn] at h
        unfold scanStruct scanStructFrom at h
        simp only at h
        rcases hr : handler fs fv.1 g with _ | ⟨⟨ok, err⟩, g2⟩
        · rw [hr] at h
          exact Option.noConfusion h
        · rw [hr] at h
          have hg2 := hh fs fv.1 g (ok, err) g2 hr
          cases err with
          | some er =>
            simp only [Option.some.injEq, Prod.mk.injEq] at h
            rw [← h.2]
            exact hg2
          | none =>
            cases ok with
            | true =>
              simp only [Option.some.injEq, Prod.mk.injEq] at h
              rw [← h.2]
              exact hg2
            | false =>
              simp only at h
              exact htrans _ _ _ hg2 (ihn fs hn g2 e g1 h)
      | none =>
        rw [scanStructWalk_leaf handler fv _ g hs (isNestedRecord_eq_false _ hn)] at h
        obtain ⟨os, hos⟩ := scanStructOption_group fv.1 fv.2 fv.1.Tag g
        rcases hopt2 : scanStructOption fv.1 fv.2 fv.1.Tag g with ⟨_ | err, g2⟩
        · rw [hopt2] at h hos
          simp only at h hos
          rw [hos] at h
          exact htrans _ _ _ (hopt g _) (ihr _ e g1 h)
        · rw [hopt2] at h hos
          simp only [Option.some.injEq, Prod.mk.injEq] at h hos
          rw [← h.2, hos]
          exact hopt g _

theorem setOptions_setOptions (g : flags.Group) (a b : List flags.Option) :
    (g.setOptions a).setOptions b = g.setOptions b := by
  cases g
  rfl

theorem setOptions_options (g : flags.Group) (a : List flags.Option) :
    (g.setOptions a).options = a := by
  cases g
  rfl

theorem setOptions_groups (g : flags.Group) (a : List flags.Option) :
    (g.setOptions a).groups = g.groups := by
  cases g
  rfl

theorem setGroups_groups (g : flags.Group) (gs : List flags.Group) :
    (g.setGroups gs).groups = gs := by
  cases g
  rfl

theorem sameHeader_refl (g : flags.Group) : sameHeader g g := ⟨rfl, rfl, rfl⟩

theorem sameHeader_trans (g1 g2 g3 : flags.Group) (h12 : sameHeader g1 g2)
    (h23 : sameHeader g2 g3) : sameHeader g1 g3 :=
  ⟨h23.1.trans h12.1, h23.2.1.trans h12.2.1, h23.2.2.trans h12.2.2⟩

theorem sameHeader_setOptions (g : flags.Group) (os : List flags.Option) :
    sameHeader g (g.setOptions os) := by
  cases g
  exact ⟨rfl, rfl, rfl⟩

theorem sameHeader_setGroups (g : flags.Group) (gs : List flags.Group) :
    sameHeader g (g.setGroups gs) := by
  cases g
  exact ⟨rfl, rfl, rfl⟩

theorem scanSubGroupHandler_rel (R : flags.Group → flags.Group → Prop) (hrefl : ∀ g, R g g)
    (hgrp : ∀ g gs, R g (g.setGroups gs)) (sc : flags.Group → scanResult)
    (rv : reflect.Record) (sf : reflect.StructField) (g : flags.Group)
    (res : Bool × Option flags.error) (g1 : flags.Group)
    (h : scanSubGroupHandler sc rv sf g = some (res, g1)) : R g g1 := by
  unfold scanSubGroupHandler flags.Group.AddGroup at h
  simp only at h
  split_ifs at h with hg
  · rcases hsc : sc (newGroup (sf.Tag.Get "group") (sf.Tag.Get "description") rv) with
      _ | ⟨_ | err, grp⟩
    · rw [hsc] at h
      exact Option.noConfusion h
    · rw [hsc] at h
      simp only [Option.some.injEq, Prod.mk.injEq] at h
      rw [← h.2]
      exact hgrp g _
    · rw [hsc] at h
      simp only [Option.some.injEq, Prod.mk.injEq] at h
      rw [← h.2]
      exact hrefl g
  · simp only [Option.some.injEq, Prod.mk.injEq] at h
    rw [← h.2]
    exact hrefl g

theorem scan_rel (R : flags.Group → flags.Group → Prop) (hrefl : ∀ g, R g g)
    (htrans : ∀ g1 g2 g3, R g1 g2 → R g2 g3 → R g1 g3)
    (hopt : ∀ g os, R g (g.setOptions os)) (hgrp : ∀ g gs, R g (g.setGroups gs))
    (n : Nat) (g : flags.Group) (e : Option flags.error) (g1 : flags.Group)
    (h : scan n g = some (e, g1)) : R g g1 := by
  cases n with
  | zero => exact Option.noConfusion h
  | succ n =>
    exact scanStructWalk_rel R hrefl htrans hopt _
      (scanSubGroupHandler_rel R hrefl hgrp (scan n)) g.data g e g1 h

theorem scan_sameHeader (n : Nat) (g : flags.Group) (e : Option flags.error)
    (g1 : flags.Group) (h : scan n g = some (e, g1)) : sameHeader g g1 :=
  scan_rel sameHeader sameHeader_refl sameHeader_trans sameHeader_setOptions
    sameHeader_setGroups n g e g1 h

theorem scanStructWalk_flat_group (handler : scanHandler) (r : reflect.Record)
    (hflat : isFlat r) :
    ∀ g e g1, scanStructWalk handler r g = some (e, g1) →
      ∃ os, g1 = g.setOptions (g.options ++ os) := by
  induction r with
  | nil =>
    intro g e g1 h
    simp only [scanStructWalk, Option.some.injEq, Prod.mk.injEq] at h
    exact ⟨[], by rw [← h.2, setOptions_self_append_nil]⟩
  | cons fv r ih =>
    intro g e g1 h
    obtain ⟨hfv, hrest⟩ := isFlat_cons fv r hflat
    cases hs : isScanned fv.1 with
    | false =>
      rw [scanStructWalk_skip handler fv _ g hs] at h
      exact ih hrest g e g1 h
    | true =>
      rw [scanStructWalk_leaf handler fv _ g hs (hfv hs)] at h
      obtain ⟨os, hos⟩ := scanStructOption_group fv.1 fv.2 fv.1.Tag g
      rcases hopt2 : scanStructOption fv.1 fv.2 fv.1.Tag g with ⟨_ | err, g2⟩
      · rw [hopt2] at h hos
        simp only at h hos
        obtain ⟨os2, hos2⟩ := ih hrest g2 e g1 h
        refine ⟨os ++ os2, ?_⟩
        rw [hos2, hos, setOptions_setOptions, setOptions_options, List.append_assoc]
      · rw [hopt2] at h hos
        simp only [Option.some.injEq, Prod.mk.injEq] at h hos
        exact ⟨os, by rw [← h.2, hos]⟩

/-! ## Sub-groups -/

/-- C7 fails as stated: the only field of `exRecHiddenSub` is a nested record whose tag
declares `group:sub`, but it is not exported; scanning the record succeeds, produces no
child group, and `groupByName("sub")` returns absent. -/
theorem scan_sub_group_counterexample :
    (scan 2 (newGroup "app" "" exRecHiddenSub)).map
        (fun r => (r.1, r.2.groups.map (fun c => c.ShortDescription),
          (groupByName Char.toLower "sub" r.2).map (fun c => c.ShortDescription))) =
      some (none, [], none) := by
  decide

/-- C7, amended: let a group without child groups hold a record in which the nested record
field `fv`, whose tag declares `group:sub`, is not skipped, and every field before it is
skipped or is walked without error (it is not a nested record and its short-name text has
at most one code point). If the scan of the new group on the nested record succeeds with
`sub`, scanning the parent succeeds and leaves exactly one child group, `sub`, whose
`ShortDescription` is `sub`, and `groupByName("sub")` on the parent returns it. -/
theorem scan_sub_group (lower : Char → Char) (n : Nat) (g : flags.Group)
    (pre rest : reflect.Record) (fv : reflect.StructField × reflect.Value)
    (fs : reflect.Record) (sub : flags.Group)
    (hdata : g.data = pre ++ fv :: rest) (hgroups : g.groups = [])
    (hpre : isFlat pre)
    (hshort : ∀ x ∈ pre, isScanned x.1 = true → shortNameLength x.1 ≤ 1)
    (hscanned : isScanned fv.1 = true) (hnested : nestedRecord fv.2 = some fs)
    (hgroup : fv.1.Tag.Get "group" = "sub")
    (hsub : scan n (newGroup "sub" (fv.1.Tag.Get "description") fs) = some (none, sub))
    (hlower : "sub".data.map lower = "sub".data) :
    ∃ g1, scan (n + 1) g = some (none, g1) ∧ g1.groups = [sub] ∧
      sub.ShortDescription = "sub" ∧ groupByName lower "sub" g1 = some sub := by
  obtain ⟨g0, hg0⟩ := (scanStructWalk_flat_error (scanSubGroupHandler (scan n)) pre g hpre).1
    hshort
  obtain ⟨os, hos⟩ := scanStructWalk_flat_group _ pre hpre g none g0 hg0
  have hg0groups : g0.groups = [] := by rw [hos, setOptions_groups, hgroups]
  have hsd : sub.ShortDescription = "sub" := (scan_sameHeader n _ none sub hsub).1
  refine ⟨g0.setGroups (g0.groups ++ [sub]), ?_, ?_, hsd, ?_⟩
  · show scanStructWalk (scanSubGroupHandler (scan n)) g.data g = _
    rw [hdata, scanStructWalk_append _ pre _ g hpre, hg0]
    simp only
    rw [scanStructWalk_dive _ fv rest fs g0 hscanned hnested]
    simp [scanStruct, scanStructFrom, scanSubGroupHandler, flags.Group.AddGroup, hgroup, hsub]
  · rw [setGroups_groups, hg0groups]
    rfl
  · rw [hg0groups]
    cases g0 with
    | mk sd ld d os gs =>
      have hname : strings.ToLower lower "sub" = "sub" := by
        unfold strings.ToLower
        rw [hlower]
      simp only [flags.Group.setGroups, List.nil_append, groupByName, groupByNameLoop, hname,
        hsd]
      have hpfx : strings.HasPrefix "sub" ("sub" ++ ".") = false := by decide
      rw [if_neg (by decide), hpfx]
      simp

/-- Witness of `scan_sub_group`: the end-to-end record `exRecEndToEnd`, with the lowering
of the ASCII letters. -/
theorem scan_sub_group_witness :
    ∃ g1, scan 2 (newGroup "app" "" exRecEndToEnd) = some (none, g1) ∧
      g1.groups = [(newGroup "sub" "sub options" [exField "X" [("long", ["x"])]]).setOptions
        [optionOfField (exField "X" [("long", ["x"])]).1 (.other true [])
          (exField "X" [("long", ["x"])]).1.Tag]] ∧
      ((newGroup "sub" "sub options" [exField "X" [("long", ["x"])]]).setOptions
        [optionOfField (exField "X" [("long", ["x"])]).1 (.other true [])
          (exField "X" [("long", ["x"])]).1.Tag]).ShortDescription = "sub" ∧
      groupByName Char.toLower "sub" g1 =
        some ((newGroup "sub" "sub options" [exField "X" [("long", ["x"])]]).setOptions
          [optionOfField (exField "X" [("long", ["x"])]).1 (.other true [])
            (exField "X" [("long", ["x"])]).1.Tag]) :=
  scan_sub_group Char.toLower 1 (newGroup "app" "" exRecEndToEnd)
    [exField "Verbose" [("short", ["v"]), ("description", ["enable verbose"])],
      exField "Name" [("long", ["name"]), ("default", ["anon"])]]
    []
    (⟨"Sub", "", ⟨[("group", ["sub"]), ("description", ["sub options"])]⟩⟩,
      .Struct [exField "X" [("long", ["x"])]])
    [exField "X" [("long", ["x"])]] _
    rfl rfl (by unfold isFlat; decide) (by decide) (by decide) rfl (by decide) rfl (by decide)

/-- Witness of `scanStruct_returns_first_nested`: in `exRecInnerTail` the walk reaches
`Inner` after `Verbose`; the scan of the record is the scan of `Inner`, and `Tail` is not
scanned. -/
theorem scanStruct_returns_first_nested_witness :
    scanStruct (scanSubGroupHandler (scan 0)) exRecInnerTail none
        (newGroup "app" "" exRecInnerTail) =
      scanStruct (scanSubGroupHandler (scan 0)) [exField "X" [("long", ["x"])]]
        (some ⟨"Inner", "", ⟨[]⟩⟩)
        ((newGroup "app" "" exRecInnerTail).setOptions
          [optionOfField (exField "Verbose" [("short", ["v"])]).1 (.other true [])
            ⟨[("short", ["v"])]⟩]) :=
  (scanStruct_returns_first_nested (scanSubGroupHandler (scan 0))
    [exField "Verbose" [("short", ["v"])]] [exField "Tail" [("long", ["tail"])]]
    (⟨"Inner", "", ⟨[]⟩⟩, .Struct [exField "X" [("long", ["x"])]])
    [exField "X" [("long", ["x"])]] (newGroup "app" "" exRecInnerTail) _
    (by unfold isFlat; decide) rfl (by decide) rfl).2.1

/-! ## `groupByName` -/

theorem groupByName_mk (lower : Char → Char) (name sd ld : String) (d : reflect.Record)
    (os : List flags.Option) (gs : List flags.Group) :
    groupByName lower name (.mk sd ld d os gs) =
      if (strings.ToLower lower name).data.length = 0 then some (.mk sd ld d os gs)
      else groupByNameLoop lower (strings.ToLower lower name) gs := by
  rw [groupByName]

theorem groupByName_eq (lower : Char → Char) (name : String) (g : flags.Group) :
    groupByName lower name g =
      if (strings.ToLower lower name).data.length = 0 then some g
      else groupByNameLoop lower (strings.ToLower lower name) g.groups := by
  cases g
  rw [groupByName_mk]
  rfl

theorem groupByNameLoop_cons (lower : Char → Char) (name : String) (subg : flags.Group)
    (rest : List flags.Group) :
    groupByNameLoop lower name (subg :: rest) =
      if strings.HasPrefix name (lowerName lower subg ++ ".") = true then
        match groupByName lower
          (strings.sliceFrom name (lowerName lower subg ++ ".").data.length) subg with
        | some grp => some grp
        | none => groupByNameLoop lower name rest
      else if name = lowerName lower subg then some subg
      else groupByNameLoop lower name rest := by
  rw [groupByNameLoop]
  rfl

/-- The loop steps over a child that does not match: neither does the path continue below
it to a group, nor is the path its lowercased name. -/
theorem groupByNameLoop_skip (lower : Char → Char) (name : String) (subg : flags.Group)
    (rest : List flags.Group)
    (hpfx : strings.HasPrefix name (lowerName lower subg ++ ".") = true →
      groupByName lower
        (strings.sliceFrom name (lowerName lower subg ++ ".").data.length) subg = none)
    (hname : strings.HasPrefix name (lowerName lower subg ++ ".") = false →
      name ≠ lowerName lower subg) :
    groupByNameLoop lower name (subg :: rest) = groupByNameLoop lower name rest := by
  rw [groupByNameLoop_cons]
  cases h : strings.HasPrefix name (lowerName lower subg ++ ".") with
  | true =>
    rw [if_pos rfl, hpfx h]
  | false =>
    rw [if_neg (by simp), if_neg (hname h)]

theorem groupByNameLoop_append_skip (lower : Char → Char) (name : String)
    (pre tail : List flags.Group)
    (h : ∀ c ∈ pre,
      (strings.HasPrefix name (lowerName lower c ++ ".") = true →
        groupByName lower
          (strings.sliceFrom name (lowerName lower c ++ ".").data.length) c = none) ∧
      (strings.HasPrefix name (lowerName lower c ++ ".") = false →
        name ≠ lowerName lower c)) :
    groupByNameLoop lower name (pre ++ tail) = groupByNameLoop lower name tail := by
  induction pre with
  | nil => rfl
  | cons c pre ih =>
    rw [List.cons_append,
      groupByNameLoop_skip lower name c _ (h c (List.mem_cons_self _ _)).1
        (h c (List.mem_cons_self _ _)).2]
    exact ih fun x hx => h x (List.mem_cons_of_mem _ hx)

theorem hasPrefix_a_dot_b (l : String) (h : strings.HasPrefix "a.b" (l ++ ".") = true) :
    l = "a" := by
  rcases l with ⟨_ | ⟨x, _ | ⟨y, _ | ⟨z, _ | ⟨w, t⟩⟩⟩⟩⟩ <;>
    simp [strings.HasPrefix, List.isPrefixOf] at h
  · rw [h]

theorem hasPrefix_b (l : String) : strings.HasPrefix "b" (l ++ ".") = false := by
  rcases l with ⟨_ | ⟨x, _ | ⟨y, t⟩⟩⟩ <;> simp [strings.HasPrefix, List.isPrefixOf]

theorem groupByNameLoop_b (lower : Char → Char) (pre post : List flags.Group)
    (b : flags.Group) (hpre : ∀ d ∈ pre, lowerName lower d ≠ "b")
    (hb : lowerName lower b = "b") :
    groupByNameLoop lower "b" (pre ++ b :: post) = some b := by
  rw [groupByNameLoop_append_skip lower "b" pre _ fun d hd =>
    ⟨fun h => by rw [hasPrefix_b] at h; exact Bool.noConfusion h,
      fun _ h => hpre d hd h.symm⟩]
  rw [groupByNameLoop_cons, hasPrefix_b, if_neg (by simp), if_pos hb.symm]

theorem groupByNameLoop_b_none (lower : Char → Char) (gs : List flags.Group)
    (hgs : ∀ d ∈ gs, lowerName lower d ≠ "b") :
    groupByNameLoop lower "b" gs = none := by
  have h := groupByNameLoop_append_skip lower "b" gs [] fun d hd =>
    ⟨fun h => by rw [hasPrefix_b] at h; exact Bool.noConfusion h,
      fun _ h => hgs d hd h.symm⟩
  rw [List.append_nil] at h
  rw [h, groupByNameLoop]

theorem toLower_b (lower : Char → Char) (h : strings.ToLower lower "a.b" = "a.b") :
    strings.ToLower lower "b" = "b" := by
  unfold strings.ToLower at h ⊢
  have h1 : List.map lower ['a', '.', 'b'] = ['a', '.', 'b'] := congrArg String.data h
  simp only [List.map, List.cons.injEq, and_true] at h1
  show String.mk (List.map lower ['b']) = "b"
  simp only [List.map, h1.2.2]

theorem groupByName_lowered_a_dot_b (lower : Char → Char) (g a b : flags.Group)
    (pre post pre1 post1 : List flags.Group)
    (hg : g.groups = pre ++ a :: post) (ha : a.groups = pre1 ++ b :: post1)
    (hlower : strings.ToLower lower "a.b" = "a.b")
    (hna : lowerName lower a = "a") (hnb : lowerName lower b = "b")
    (hpre : ∀ c ∈ pre, lowerName lower c ≠ "a.b" ∧
      (lowerName lower c = "a" → ∀ d ∈ c.groups, lowerName lower d ≠ "b"))
    (hpre1 : ∀ d ∈ pre1, lowerName lower d ≠ "b") :
    groupByNameLoop lower "a.b" g.groups = some b := by
  have hb := toLower_b lower hlower
  have hslice : strings.sliceFrom "a.b" ("a" ++ ".").data.length = "b" := by decide
  rw [hg, groupByNameLoop_append_skip lower "a.b" pre _ fun c hc => ⟨fun h => ?_, fun _ h =>
    (hpre c hc).1 h.symm⟩]
  · rw [groupByNameLoop_cons, hna, if_pos (by decide), hslice, groupByName_eq, hb,
      if_neg (by decide), ha, groupByNameLoop_b lower pre1 post1 b hpre1 hnb]
  · have hc1 := hasPrefix_a_dot_b _ h
    rw [hc1, hslice, groupByName_eq, hb, if_neg (by decide)]
    exact groupByNameLoop_b_none lower _ ((hpre c hc).2 hc1)

/-- C8 fails as stated: in `exTreeDotted` the child named `a` has a child named `b`, but
`groupByName("a.b")` returns the earlier child of the root that is itself named `a.b`. -/
theorem groupByName_dotted_path_counterexample :
    exGroup "a" "second" [exGroup "b" "third" []] ∈ exTreeDotted.groups ∧
      exGroup "b" "third" [] ∈ (exGroup "a" "second" [exGroup "b" "third" []]).groups ∧
      (groupByName Char.toLower "a.b" exTreeDotted).map
          (fun r => (r.ShortDescription, r.LongDescription)) = some ("a.b", "first") := by
  refine ⟨?_, ?_, by decide⟩
  · simp [exTreeDotted, exGroup, flags.Group.groups]
  · simp [exGroup, flags.Group.groups]

/-- C8, amended: let `a` be a child of `g` with lowercased name `a` and `b` a child of `a`
with lowercased name `b`, such that no child of `g` listed before `a` has the lowercased
name `a.b` or has the lowercased name `a` and a child with lowercased name `b`, and no child
of `a` listed before `b` has the lowercased name `b`. Then `groupByName("a.b")` on `g`
returns `b`, and so does `groupByName("A.B")`. -/
theorem groupByName_dotted_path (lower : Char → Char) (g a b : flags.Group)
    (pre post pre1 post1 : List flags.Group)
    (hg : g.groups = pre ++ a :: post) (ha : a.groups = pre1 ++ b :: post1)
    (hlower : strings.ToLower lower "a.b" = "a.b")
    (hupper : strings.ToLower lower "A.B" = "a.b")
    (hna : lowerName lower a = "a") (hnb : lowerName lower b = "b")
    (hpre : ∀ c ∈ pre, lowerName lower c ≠ "a.b" ∧
      (lowerName lower c = "a" → ∀ d ∈ c.groups, lowerName lower d ≠ "b"))
    (hpre1 : ∀ d ∈ pre1, lowerName lower d ≠ "b") :
    groupByName lower "a.b" g = some b ∧ groupByName lower "A.B" g = some b := by
  have h := groupByName_lowered_a_dot_b lower g a b pre post pre1 post1 hg ha hlower hna hnb
    hpre hpre1
  constructor
  · rw [groupByName_eq, hlower, if_neg (by decide), h]
  · rw [groupByName_eq, hupper, if_neg (by decide), h]

/-- Witness of `groupByName_dotted_path`: in `exTreeAB`, with the lowering of the ASCII
letters, `a.b` and `A.B` both lead to the group `b`. -/
theorem groupByName_dotted_path_witness :
    groupByName Char.toLower "a.b" exTreeAB = some (exGroup "b" "" [exGroup "c" "" []]) ∧
      groupByName Char.toLower "A.B" exTreeAB = some (exGroup "b" "" [exGroup "c" "" []]) :=
  groupByName_dotted_path Char.toLower exTreeAB
    (exGroup "a" "" [exGroup "b" "" [exGroup "c" "" []]]) (exGroup "b" "" [exGroup "c" "" []])
    [] [exGroup "d" "" []] [] [] rfl rfl (by decide) (by decide) (by decide) (by decide)
    (by simp) (by simp)

/-! ## Induction over a group tree -/

theorem group_induction (motive : flags.Group → Prop)
    (hmk : ∀ (sd ld : String) (d : reflect.Record) (os : List flags.Option)
      (gs : List flags.Group), (∀ c ∈ gs, motive c) → motive (.mk sd ld d os gs))
    (g : flags.Group) : motive g := by
  have key : ∀ n (g : flags.Group), sizeOf g < n → motive g := by
    intro n
    induction n with
    | zero => intro g h; omega
    | succ n ih =>
      intro g h
      cases g with
      | mk sd ld d os gs =>
        refine hmk sd ld d os gs fun c hc => ih c ?_
        have h1 := List.sizeOf_lt_of_mem hc
        have h2 : sizeOf (flags.Group.mk sd ld d os gs) =
            1 + sizeOf sd + sizeOf ld + sizeOf d + sizeOf os + sizeOf gs := by simp
        omega
  exact key _ g (Nat.lt_succ_self _)

theorem sameLower_lowerName (lower : Char → Char) (c c1 : flags.Group)
    (h : sameLower lower c c1) : lowerName lower c = lowerName lower c1 := by
  cases c
  cases c1
  rw [sameLower] at h
  exact h.1

theorem sameLower_mk (lower : Char → Char) (sd ld sd1 ld1 : String) (d d1 : reflect.Record)
    (os os1 : List flags.Option) (gs gs1 : List flags.Group) :
    sameLower lower (.mk sd ld d os gs) (.mk sd1 ld1 d1 os1 gs1) ↔
      strings.ToLower lower sd = strings.ToLower lower sd1 ∧ ld = ld1 ∧ d = d1 ∧ os = os1 ∧
        sameLowerList lower gs gs1 := by
  rw [sameLower]

theorem sameLowerList_nil (lower : Char → Char) : sameLowerList lower [] [] := by
  rw [sameLowerList]
  trivial

theorem sameLowerList_cons (lower : Char → Char) (c c1 : flags.Group)
    (cs cs1 : List flags.Group) :
    sameLowerList lower (c :: cs) (c1 :: cs1) ↔
      sameLower lower c c1 ∧ sameLowerList lower cs cs1 := by
  rw [sameLowerList]

theorem groupByNameLoop_sameLower (lower : Char → Char) (name : String)
    (gs : List flags.Group) :
    ∀ gs1, sameLowerList lower gs gs1 →
      (∀ c ∈ gs, ∀ c1 p, sameLower lower c c1 →
        Option.Rel (sameLower lower) (groupByName lower p c) (groupByName lower p c1)) →
      Option.Rel (sameLower lower) (groupByNameLoop lower name gs)
        (groupByNameLoop lower name gs1) := by
  induction gs with
  | nil =>
    intro gs1 hs _
    cases gs1 with
    | nil =>
      rw [groupByNameLoop]
      exact Option.Rel.none
    | cons c1 cs1 => simp [sameLowerList] at hs
  | cons c cs ih =>
    intro gs1 hs hrec
    cases gs1 with
    | nil => simp [sameLowerList] at hs
    | cons c1 cs1 =>
      rw [sameLowerList] at hs
      have hname := sameLower_lowerName lower c c1 hs.1
      have htail := ih cs1 hs.2 fun x hx => hrec x (List.mem_cons_of_mem _ hx)
      have hhead := hrec c (List.mem_cons_self _ _) c1
        (strings.sliceFrom name (lowerName lower c ++ ".").data.length) hs.1
      rw [groupByNameLoop_cons, groupByNameLoop_cons, ← hname]
      cases hp : strings.HasPrefix name (lowerName lower c ++ ".") with
      | true =>
        rw [if_pos rfl, if_pos rfl]
        generalize groupByName lower
          (strings.sliceFrom name (lowerName lower c ++ ".").data.length) c = x at hhead
        generalize groupByName lower
          (strings.sliceFrom name (lowerName lower c ++ ".").data.length) c1 = y at hhead
        cases hhead with
        | some hr => exact Option.Rel.some hr
        | none => exact htail
      | false =>
        simp only [Bool.false_eq_true, if_false]
        by_cases hn : name = lowerName lower c
        · rw [if_pos hn, if_pos hn]
          exact Option.Rel.some hs.1
        · rw [if_neg hn, if_neg hn]
          exact htail

theorem groupByName_sameLower (lower : Char → Char) (g : flags.Group) :
    ∀ g1 p, sameLower lower g g1 →
      Option.Rel (sameLower lower) (groupByName lower p g) (groupByName lower p g1) := by
  induction g using group_induction with
  | hmk sd ld d os gs ih =>
    intro g1 p hs
    cases g1 with
    | mk sd1 ld1 d1 os1 gs1 =>
      rw [groupByName_mk, groupByName_mk]
      by_cases hl : (strings.ToLower lower p).data.length = 0
      · rw [if_pos hl, if_pos hl]
        exact Option.Rel.some hs
      · rw [if_neg hl, if_neg hl]
        rw [sameLower] at hs
        exact groupByNameLoop_sameLower lower _ gs gs1 hs.2.2.2.2 ih

/-- C9: `groupByName` is case-insensitive in the path and in the group names: two paths with
the same lowercase form give the same result; on a tree `g1` that is `g` with the
`ShortDescription` of any of its groups replaced by a string with the same lowercase form,
the result is the corresponding group (absent when it is absent on `g`); and the empty path
returns the group itself. -/
theorem groupByName_case_insensitive (lower : Char → Char) (g g1 : flags.Group)
    (p q : String) (hpq : strings.ToLower lower p = strings.ToLower lower q)
    (hsame : sameLower lower g g1) :
    groupByName lower p g = groupByName lower q g ∧
      Option.Rel (sameLower lower) (groupByName lower p g) (groupByName lower p g1) ∧
      groupByName lower "" g = some g := by
  refine ⟨?_, groupByName_sameLower lower g g1 p hsame, ?_⟩
  · rw [groupByName_eq, groupByName_eq, hpq]
  · rw [groupByName_eq]
    rfl

/-- Witness of `groupByName_case_insensitive`: the paths `a.b` and `A.B` on `exTreeAB` and
on `exTreeABUpper`, with the lowering of the ASCII letters. -/
theorem groupByName_case_insensitive_witness :
    groupByName Char.toLower "a.b" exTreeAB = groupByName Char.toLower "A.B" exTreeAB ∧
      Option.Rel (sameLower Char.toLower) (groupByName Char.toLower "a.b" exTreeAB)
        (groupByName Char.toLower "a.b" exTreeABUpper) ∧
      groupByName Char.toLower "" exTreeAB = some exTreeAB :=
  groupByName_case_insensitive Char.toLower exTreeAB exTreeABUpper "a.b" "A.B" (by decide)
    ((sameLower_mk _ _ _ _ _ _ _ _ _ _ _).mpr ⟨rfl, rfl, rfl, rfl,
      (sameLowerList_cons _ _ _ _ _).mpr
        ⟨(sameLower_mk _ _ _ _ _ _ _ _ _ _ _).mpr ⟨by decide, rfl, rfl, rfl,
          (sameLowerList_cons _ _ _ _ _).mpr
            ⟨(sameLower_mk _ _ _ _ _ _ _ _ _ _ _).mpr ⟨by decide, rfl, rfl, rfl,
              (sameLowerList_cons _ _ _ _ _).mpr
                ⟨(sameLower_mk _ _ _ _ _ _ _ _ _ _ _).mpr
                  ⟨rfl, rfl, rfl, rfl, sameLowerList_nil _⟩,
                sameLowerList_nil _⟩⟩,
            sameLowerList_nil _⟩⟩,
        (sameLowerList_cons _ _ _ _ _).mpr
          ⟨(sameLower_mk _ _ _ _ _ _ _ _ _ _ _).mpr
            ⟨by decide, rfl, rfl, rfl, sameLowerList_nil _⟩,
          sameLowerList_nil _⟩⟩⟩)

/-! ## `eachGroup` -/

theorem eachGroup_mk {σ : Type} (f : flags.Group → σ → σ) (recurse : Bool) (sd ld : String)
    (d : reflect.Record) (os : List flags.Option) (gs : List flags.Group) (s : σ) :
    eachGroup f recurse (.mk sd ld d os gs) s =
      eachGroupLoop f recurse gs (f (.mk sd ld d os gs) s) := rfl

theorem eachGroupLoop_nil {σ : Type} (f : flags.Group → σ → σ) (recurse : Bool) (s : σ) :
    eachGroupLoop f recurse [] s = s := rfl

theorem eachGroupLoop_cons {σ : Type} (f : flags.Group → σ → σ) (recurse : Bool)
    (c : flags.Group) (cs : List flags.Group) (s : σ) :
    eachGroupLoop f recurse (c :: cs) s =
      eachGroupLoop f recurse cs (if recurse then eachGroup f true c s else f c s) := by
  cases recurse <;> rfl

theorem eachGroupLoop_false {σ : Type} (f : flags.Group → σ → σ) (gs : List flags.Group) :
    ∀ s, eachGroupLoop f false gs s = gs.foldl (fun s x => f x s) s := by
  induction gs with
  | nil =>
    intro s
    rfl
  | cons c cs ih =>
    intro s
    rw [eachGroupLoop_cons, ih]
    rfl

theorem eachGroupLoop_true {σ : Type} (f : flags.Group → σ → σ) (gs : List flags.Group)
    (hrec : ∀ c ∈ gs, ∀ s, eachGroup f true c s = (preorder c).foldl (fun s x => f x s) s) :
    ∀ s, eachGroupLoop f true gs s = (preorderList gs).foldl (fun s x => f x s) s := by
  induction gs with
  | nil =>
    intro s
    rfl
  | cons c cs ih =>
    intro s
    rw [eachGroupLoop_cons, preorderList, List.foldl_append,
      ih fun x hx => hrec x (List.mem_cons_of_mem _ hx)]
    rw [if_pos rfl, hrec c (List.mem_cons_self _ _)]

theorem eachGroup_true {σ : Type} (f : flags.Group → σ → σ) (g : flags.Group) :
    ∀ s, eachGroup f true g s = (preorder g).foldl (fun s x => f x s) s := by
  induction g using group_induction with
  | hmk sd ld d os gs ih =>
    intro s
    rw [eachGroup_mk, preorder, eachGroupLoop_true f gs ih]
    rfl

theorem preorderList_length (gs : List flags.Group)
    (hrec : ∀ c ∈ gs, (preorder c).length = groupCount c) :
    (preorderList gs).length = groupCountList gs := by
  induction gs with
  | nil => rw [preorderList, groupCountList]; rfl
  | cons c cs ih =>
    rw [preorderList, groupCountList, List.length_append, hrec c (List.mem_cons_self _ _),
      ih fun x hx => hrec x (List.mem_cons_of_mem _ hx)]

theorem preorder_length (g : flags.Group) : (preorder g).length = groupCount g := by
  induction g using group_induction with
  | hmk sd ld d os gs ih =>
    rw [preorder, groupCount, List.length_cons, preorderList_length gs ih]
    omega

/-- C10: with `recurse` true, `eachGroup` calls the visitor on the groups of the subtree
rooted at `g` in depth-first pre-order, children in declaration order, `g` first, once for
each group of the subtree; with `recurse` false it calls the visitor on `g` and then on each
immediate child of `g` in declaration order and on no other group, `1 +` the number of
children calls in all. -/
theorem eachGroup_visits {σ : Type} (f : flags.Group → σ → σ) (g : flags.Group) (s : σ) :
    eachGroup f true g s = (preorder g).foldl (fun s x => f x s) s ∧
      (preorder g).length = groupCount g ∧
      eachGroup f false g s = (g :: g.groups).foldl (fun s x => f x s) s ∧
      (g :: g.groups).length = 1 + g.groups.length := by
  refine ⟨eachGroup_true f g s, preorder_length g, ?_, by simp [Nat.add_comm]⟩
  cases g with
  | mk sd ld d os gs =>
    rw [eachGroup_mk, eachGroupLoop_false]
    rfl

/-! ## The fuel of `scan` -/

theorem recordLevels_cons (fv : reflect.StructField × reflect.Value) (rest : reflect.Record) :
    recordLevels (fv :: rest) = max (valueLevels fv.2) (recordLevels rest) := by
  rw [recordLevels]

theorem valueLevels_nested (v : reflect.Value) (fs : reflect.Record)
    (h : nestedRecord v = some fs) : valueLevels v = recordLevels fs + 1 := by
  cases v with
  | other c cs => simp [nestedRecord] at h
  | Struct fs1 =>
    simp only [nestedRecord, Option.some.injEq] at h
    subst h
    rw [valueLevels]
  | PtrToStruct e =>
    cases e with
    | none => simp [nestedRecord] at h
    | some fs1 =>
      simp only [nestedRecord, Option.some.injEq] at h
      subst h
      rw [valueLevels]

/-- A walk whose handler returns on every nested record of the record returns. -/
theorem scanStructWalk_isSome (sc : flags.Group → scanResult) (n : Nat)
    (hsc : ∀ sd ld fs, recordLevels fs < n → (sc (newGroup sd ld fs)).isSome = true)
    (r : reflect.Record) :
    recordLevels r ≤ n → ∀ g, (scanStructWalk (scanSubGroupHandler sc) r g).isSome = true := by
  induction r using record_induction with
  | hnil =>
    intro _ g
    simp [scanStructWalk]
  | hcons fv rest ihn ihr =>
    intro hle g
    rw [recordLevels_cons] at hle
    have hrest : recordLevels rest ≤ n := le_trans (le_max_right _ _) hle
    cases hs : isScanned fv.1 with
    | false =>
      rw [scanStructWalk_skip _ fv _ g hs]
      exact ihr hrest g
    | true =>
      cases hn : nestedRecord fv.2 with
      | some fs =>
        have hfs : recordLevels fs < n := by
          have := valueLevels_nested fv.2 fs hn
          have := le_trans (le_max_left _ _) hle
          omega
        rw [scanStructWalk_dive _ fv rest fs g hs hn]
        unfold scanStruct scanStructFrom scanSubGroupHandler flags.Group.AddGroup
        simp only
        by_cases hg : (fv.1.Tag.Get "group").data.length ≠ 0
        · rw [if_pos hg]
          have hsome := hsc (fv.1.Tag.Get "group") (fv.1.Tag.Get "description") fs hfs
          rcases hr : sc (newGroup (fv.1.Tag.Get "group") (fv.1.Tag.Get "description") fs)
            with _ | ⟨_ | err, grp⟩
          · rw [hr] at hsome
            exact Bool.noConfusion hsome
          · rfl
          · rfl
        · rw [if_neg hg]
          exact ihn fs hn (le_of_lt hfs) g
      | none =>
        rw [scanStructWalk_leaf _ fv _ g hs (isNestedRecord_eq_false _ hn)]
        rcases hopt : scanStructOption fv.1 fv.2 fv.1.Tag g with ⟨_ | err, g2⟩
        · exact ihr hrest g2
        · rfl

/-- Enough fuel: `scan` returns when the fuel exceeds the number of struct levels of the
record of the group. -/
theorem scan_isSome (n : Nat) :
    ∀ g : flags.Group, recordLevels g.data < n → (scan n g).isSome = true := by
  induction n with
  | zero =>
    intro g h
    omega
  | succ n ih =>
    intro g h
    exact scanStructWalk_isSome (scan n) n (fun sd ld fs hfs => ih (newGroup sd ld fs) hfs)
      g.data (Nat.lt_succ_iff.mp h) g

/-- A walk keeps its result when the scan run by the handler is replaced by one that
returns the same wherever the first returns. -/
theorem scanStructWalk_mono (sc sc1 : flags.Group → scanResult)
    (hsc : ∀ g x, sc g = some x → sc1 g = some x) (r : reflect.Record) :
    ∀ g x, scanStructWalk (scanSubGroupHandler sc) r g = some x →
      scanStructWalk (scanSubGroupHandler sc1) r g = some x := by
  induction r using record_induction with
  | hnil =>
    intro g x h
    simpa [scanStructWalk] using h
  | hcons fv rest ihn ihr =>
    intro g x h
    cases hs : isScanned fv.1 with
    | false =>
      rw [scanStructWalk_skip _ fv _ g hs] at h ⊢
      exact ihr g x h
    | true =>
      cases hn : nestedRecord fv.2 with
      | some fs =>
        rw [scanStructWalk_dive _ fv rest fs g hs hn] at h ⊢
        unfold scanStruct scanStructFrom scanSubGroupHandler flags.Group.AddGroup at h ⊢
        simp only at h ⊢
        by_cases hg : (fv.1.Tag.Get "group").data.length ≠ 0
        · rw [if_pos hg] at h ⊢
          rcases hr : sc (newGroup (fv.1.Tag.Get "group") (fv.1.Tag.Get "description") fs)
            with _ | ⟨_ | err, grp⟩
          · rw [hr] at h
            exact Option.noConfusion h
          · rw [hr] at h
            rw [hsc _ _ hr]
            exact h
          · rw [hr] at h
            rw [hsc _ _ hr]
            exact h
        · rw [if_neg hg] at h ⊢
          exact ihn fs hn g x h
      | none =>
        rw [scanStructWalk_leaf _ fv _ g hs (isNestedRecord_eq_false _ hn)] at h ⊢
        rcases hopt : scanStructOption fv.1 fv.2 fv.1.Tag g with ⟨_ | err, g2⟩
        · rw [hopt] at h
          exact ihr g2 x h
        · rw [hopt] at h
          exact h

/-- More fuel does not change what `scan` returns. -/
theorem scan_mono (n : Nat) :
    ∀ (g : flags.Group) (x : Option flags.error × flags.Group),
      scan n g = some x → scan (n + 1) g = some x := by
  induction n with
  | zero =>
    intro g x h
    exact Option.noConfusion h
  | succ n ih =>
    intro g x h
    exact scanStructWalk_mono (scan n) (scan (n + 1)) ih g.data g x h

/-! ## `storeDefaults` -/

theorem foldl_set_value (set : flags.multiTag → String → reflect.Value → reflect.Value)
    (ds : List String) :
    ∀ o : flags.Option,
      ds.foldl (fun o d => { o with value := set o.tag d o.value }) o =
        { o with value := ds.foldl (fun v d => set o.tag d v) o.value } := by
  induction ds with
  | nil =>
    intro o
    rfl
  | cons d ds ih =>
    intro o
    rw [List.foldl_cons, ih]
    rfl

theorem storeDefaultsOption_eq (clear : reflect.Value → reflect.Value)
    (set : flags.multiTag → String → reflect.Value → reflect.Value) (o : flags.Option) :
    storeDefaultsOption clear set o =
      if (defaultedValue clear set o).CanSet = true then
        { o with value := defaultedValue clear set o,
                 defaultValue := some (reflect.ValueOfInterface (defaultedValue clear set o)) }
      else { o with value := defaultedValue clear set o } := by
  unfold storeDefaultsOption defaultedValue
  simp only [foldl_set_value]
  by_cases hd : o.Default.length > 0
  · simp only [hd, if_true]
    cases hc : (List.foldl (fun v d => set o.tag d v) (clear o.value) o.Default).CanSet <;> simp
  · simp only [hd, if_false]
    cases hc : (List.foldl (fun v d => set o.tag d v) o.value o.Default).CanSet <;> simp

theorem clear_foldl_set (clear : reflect.Value → reflect.Value)
    (set : flags.multiTag → String → reflect.Value → reflect.Value)
    (hreset : ∀ t d v, clear (set t d v) = clear v) (t : flags.multiTag) (ds : List String) :
    ∀ v, clear (ds.foldl (fun v d => set t d v) v) = clear v := by
  induction ds with
  | nil =>
    intro v
    rfl
  | cons d ds ih =>
    intro v
    rw [List.foldl_cons, ih, hreset]

theorem defaultedValue_storeDefaultsOption (clear : reflect.Value → reflect.Value)
    (set : flags.multiTag → String → reflect.Value → reflect.Value)
    (hreset : ∀ t d v, clear (set t d v) = clear v) (hclear : ∀ v, clear (clear v) = clear v)
    (o : flags.Option) :
    defaultedValue clear set (storeDefaultsOption clear set o) = defaultedValue clear set o := by
  have hfields : (storeDefaultsOption clear set o).Default = o.Default ∧
      (storeDefaultsOption clear set o).tag = o.tag ∧
      (storeDefaultsOption clear set o).value = defaultedValue clear set o := by
    rw [storeDefaultsOption_eq]
    split_ifs <;> exact ⟨rfl, rfl, rfl⟩
  obtain ⟨h1, h2, h3⟩ := hfields
  have hunfold : defaultedValue clear set (storeDefaultsOption clear set o) =
      o.Default.foldl (fun v d => set o.tag d v)
        (if o.Default.length > 0 then clear (defaultedValue clear set o)
          else defaultedValue clear set o) := by
    rw [defaultedValue, h1, h2, h3]
  rw [hunfold]
  by_cases hd : o.Default.length > 0
  · rw [if_pos hd]
    have hc : clear (defaultedValue clear set o) = clear o.value := by
      unfold defaultedValue
      rw [if_pos hd, clear_foldl_set clear set hreset, hclear]
    rw [hc]
    unfold defaultedValue
    rw [if_pos hd]
  · rw [if_neg hd]
    have hnil : o.Default = [] := by
      cases hD : o.Default with
      | nil => rfl
      | cons d ds =>
        rw [hD] at hd
        simp at hd
    unfold defaultedValue
    rw [hnil]
    rfl

theorem storeDefaultsOption_idem (clear : reflect.Value → reflect.Value)
    (set : flags.multiTag → String → reflect.Value → reflect.Value)
    (hreset : ∀ t d v, clear (set t d v) = clear v) (hclear : ∀ v, clear (clear v) = clear v)
    (o : flags.Option) :
    storeDefaultsOption clear set (storeDefaultsOption clear set o) =
      storeDefaultsOption clear set o := by
  rw [storeDefaultsOption_eq clear set (storeDefaultsOption clear set o),
    defaultedValue_storeDefaultsOption clear set hreset hclear o, storeDefaultsOption_eq]
  split_ifs <;> rfl

/-- C11: `storeDefaults` is idempotent. With `clear` putting the bound value back to its
zero whatever has been set into it (`clear (set t d v) = clear v`, `clear (clear v) =
clear v`), running `storeDefaults` twice leaves the group, hence every option's bound value
and every option's `defaultValue`, as the first run left it. -/
theorem storeDefaults_idempotent (clear : reflect.Value → reflect.Value)
    (set : flags.multiTag → String → reflect.Value → reflect.Value)
    (hreset : ∀ t d v, clear (set t d v) = clear v) (hclear : ∀ v, clear (clear v) = clear v)
    (g : flags.Group) :
    storeDefaults clear set (storeDefaults clear set g) = storeDefaults clear set g := by
  unfold storeDefaults
  rw [setOptions_options, setOptions_setOptions, List.map_map]
  congr 1
  apply List.map_congr_left
  intro o _
  exact storeDefaultsOption_idem clear set hreset hclear o

theorem clearValue_setValue (converts : reflect.Value → String → Bool) (t : flags.multiTag)
    (d : String) (v : reflect.Value) :
    clearValue (setValue converts t d v) = clearValue v := by
  cases v with
  | other c cs =>
    cases c with
    | false => rfl
    | true =>
      show clearValue (if converts (.other true cs) d = true then .other true (cs ++ [d])
        else .other true cs) = clearValue (.other true cs)
      split_ifs <;> rfl
  | Struct fs => rfl
  | PtrToStruct e => rfl

theorem clearRecord_clearRecord (r : reflect.Record) :
    clearRecord (clearRecord r) = clearRecord r := by
  induction r using record_induction with
  | hnil => rfl
  | hcons fv rest ihn ihr =>
    have hv : clearValue (clearValue fv.2) = clearValue fv.2 := by
      rcases fv with ⟨f, v⟩
      cases v with
      | other c cs => cases c <;> rfl
      | Struct fs =>
        show reflect.Value.Struct (clearRecord (clearRecord fs)) = .Struct (clearRecord fs)
        rw [ihn fs rfl]
      | PtrToStruct e => rfl
    show (fv.1, clearValue (clearValue fv.2)) :: clearRecord (clearRecord rest) =
      (fv.1, clearValue fv.2) :: clearRecord rest
    rw [hv, ihr]

theorem clearValue_clearValue (v : reflect.Value) : clearValue (clearValue v) = clearValue v := by
  cases v with
  | other c cs => cases c <;> rfl
  | Struct fs =>
    show reflect.Value.Struct (clearRecord (clearRecord fs)) = .Struct (clearRecord fs)
    rw [clearRecord_clearRecord]
  | PtrToStruct e => rfl

/-- Witness of `storeDefaults_idempotent`: the group scanned from the end-to-end record
`exRecEndToEnd`, with `clearValue` and `setValue` on string values; after the first run the
bound value of `Name` holds `anon` and so does its snapshot. -/
theorem storeDefaults_idempotent_witness :
    (∀ g, scan 2 (newGroup "app" "" exRecEndToEnd) = some (none, g) →
        storeDefaults clearValue (setValue convertsToString)
            (storeDefaults clearValue (setValue convertsToString) g) =
          storeDefaults clearValue (setValue convertsToString) g) ∧
      (scan 2 (newGroup "app" "" exRecEndToEnd)).map
          (fun r => (storeDefaults clearValue (setValue convertsToString) r.2).options.map
            (fun o => (o.field.Name, valueContents o.value))) =
        some [("Verbose", some (true, [])), ("Name", some (true, ["anon"]))] ∧
      (scan 2 (newGroup "app" "" exRecEndToEnd)).map
          (fun r => (storeDefaults clearValue (setValue convertsToString) r.2).options.map
            (fun o => (o.field.Name, o.defaultValue.bind valueContents))) =
        some [("Verbose", some (false, [])), ("Name", some (false, ["anon"]))] := by
  refine ⟨fun g _ => storeDefaults_idempotent clearValue (setValue convertsToString)
    (clearValue_setValue convertsToString) clearValue_clearValue g, ?_, ?_⟩ <;> decide

/-- C12, the code at the failing input: the first option of `exGroupNotSettable` is bound
to a value that is not settable and declares the default `anon`. Whatever `option.clear`
and `option.set` are, `storeDefaults` hands the bound value of that option to `clear` and
then to `set` with the text `anon`: both calls stand before the `CanSet()` check, which
withholds the snapshot only. -/
theorem storeDefaults_not_settable_calls_clear_and_set
    (clear : reflect.Value → reflect.Value)
    (set : flags.multiTag → String → reflect.Value → reflect.Value) :
    exOptNotSettable.value.CanSet = false ∧ exOptNotSettable.Default = ["anon"] ∧
      exGroupNotSettable.options = [exOptNotSettable, exOptAlpha] ∧
      (storeDefaults clear set exGroupNotSettable).options.map (fun o => o.value) =
        [set exOptNotSettable.tag "anon" (clear exOptNotSettable.value), exOptAlpha.value] := by
  refine ⟨rfl, rfl, rfl, ?_⟩
  unfold storeDefaults
  rw [setOptions_options]
  show [(storeDefaultsOption clear set exOptNotSettable).value,
    (storeDefaultsOption clear set exOptAlpha).value] = _
  rw [storeDefaultsOption_eq, storeDefaultsOption_eq]
  have h1 : defaultedValue clear set exOptNotSettable =
      set exOptNotSettable.tag "anon" (clear exOptNotSettable.value) := rfl
  have h2 : defaultedValue clear set exOptAlpha = exOptAlpha.value := rfl
  rw [h1, h2]
  split_ifs <;> rfl

/-! ## The head of `scanStruct` -/

theorem sizeOf_record_cons (fv : reflect.StructField × reflect.Value) (rest : reflect.Record) :
    sizeOf (fv :: rest) = 1 + (1 + sizeOf fv.1 + sizeOf fv.2) + sizeOf rest := by
  cases fv
  simp

/-- The walk of a record invokes the handler only on records nested in it: two handlers
that agree on every record smaller than the record give the same walk. -/
theorem scanStructWalk_congr (h1 h2 : scanHandler) (r : reflect.Record) :
    (∀ rv sf g0, sizeOf rv < sizeOf r → h1 rv sf g0 = h2 rv sf g0) →
      ∀ g, scanStructWalk h1 r g = scanStructWalk h2 r g := by
  induction r using record_induction with
  | hnil =>
    intro _ g
    simp [scanStructWalk]
  | hcons fv rest ihn ihr =>
    intro hagree g
    have hsz := sizeOf_record_cons fv rest
    have hrest : ∀ g, scanStructWalk h1 rest g = scanStructWalk h2 rest g :=
      ihr fun rv sf g0 hlt => hagree rv sf g0 (by omega)
    cases hs : isScanned fv.1 with
    | false =>
      rw [scanStructWalk_skip h1 fv _ g hs, scanStructWalk_skip h2 fv _ g hs]
      exact hrest g
    | true =>
      cases hn : nestedRecord fv.2 with
      | some fs =>
        have hfs := nestedRecord_sizeOf fv.2 fs hn
        rw [scanStructWalk_dive h1 fv rest fs g hs hn, scanStructWalk_dive h2 fv rest fs g hs hn]
        unfold scanStruct scanStructFrom
        simp only
        rw [hagree fs fv.1 g (by omega)]
        have hwalk : scanStructWalk h1 fs = scanStructWalk h2 fs :=
          funext (ihn fs hn fun rv sf g0 hlt => hagree rv sf g0 (by omega))
        rw [hwalk]
      | none =>
        rw [scanStructWalk_leaf h1 fv _ g hs (isNestedRecord_eq_false _ hn),
          scanStructWalk_leaf h2 fv _ g hs (isNestedRecord_eq_false _ hn)]
        rcases scanStructOption fv.1 fv.2 fv.1.Tag g with ⟨_ | err, g2⟩
        · exact hrest g2
        · rfl

/-- C13: when `scanStruct` is called with an originating field and the handler reports an
error, `scanStruct` returns exactly that error and the group as the handler left it; when
the handler reports `handled = true` without error, `scanStruct` returns success and the
group as the handler left it; in both cases no field is walked. With no originating field
the handler is not invoked for the record: the result is the same with any handler that
differs from `handler` on that record only. -/
theorem scanStruct_handler_first (handler : scanHandler) (realval : reflect.Record)
    (sfield : reflect.StructField) (g : flags.Group) :
    (∀ ok err g1, handler realval sfield g = some ((ok, some err), g1) →
        scanStruct handler realval (some sfield) g = some (some err, g1)) ∧
      (∀ g1, handler realval sfield g = some ((true, none), g1) →
        scanStruct handler realval (some sfield) g = some (none, g1)) ∧
      (∀ handler1 : scanHandler,
        (∀ rv sf g0, rv ≠ realval → handler1 rv sf g0 = handler rv sf g0) →
        scanStruct handler1 realval none g = scanStruct handler realval none g) := by
  refine ⟨?_, ?_, ?_⟩
  · intro ok err g1 h
    unfold scanStruct scanStructFrom
    simp only [h]
  · intro g1 h
    unfold scanStruct scanStructFrom
    simp only [h]
  · intro handler1 hagree
    refine scanStructWalk_congr handler1 handler realval (fun rv sf g0 hlt => ?_) g
    refine hagree rv sf g0 fun heq => ?_
    rw [heq] at hlt
    exact Nat.lt_irrefl _ hlt

/-- Witness of `scanStruct_handler_first`: the sub-group handler claims the nested record
of a field that declares `group:sub`; `scanStruct` returns success and the group with the
child the handler registered, and walks no field. -/
theorem scanStruct_handler_first_witness :
    scanStruct (scanSubGroupHandler (scan 1)) [exField "X" [("long", ["x"])]]
        (some ⟨"Sub", "", ⟨[("group", ["sub"])]⟩⟩) (newGroup "app" "" []) =
      some (none, (newGroup "app" "" []).setGroups
        [(newGroup "sub" "" [exField "X" [("long", ["x"])]]).setOptions
          [optionOfField (exField "X" [("long", ["x"])]).1 (.other true [])
            ⟨[("long", ["x"])]⟩]]) :=
  (scanStruct_handler_first (scanSubGroupHandler (scan 1)) [exField "X" [("long", ["x"])]]
    ⟨"Sub", "", ⟨[("group", ["sub"])]⟩⟩ (newGroup "app" "" [])).2.1 _ rfl

/-! ## The options a walk appends -/

theorem optionsOfFields_cons_skip (fv : reflect.StructField × reflect.Value)
    (rest : reflect.Record) (h : (isScanned fv.1 && declaresName fv.1) = false) :
    optionsOfFields (fv :: rest) = optionsOfFields rest := by
  unfold optionsOfFields
  rw [List.filter_cons_of_neg (by simp [h])]

theorem optionsOfFields_cons (fv : reflect.StructField × reflect.Value)
    (rest : reflect.Record) (h : (isScanned fv.1 && declaresName fv.1) = true) :
    optionsOfFields (fv :: rest) =
      optionOfField fv.1 fv.2 fv.1.Tag :: optionsOfFields rest := by
  unfold optionsOfFields
  rw [List.filter_cons_of_pos (by simp [h]), List.map_cons]

theorem scanStructOption_ok (field : reflect.StructField) (v : reflect.Value)
    (g : flags.Group) (hlen : shortNameLength field ≤ 1) :
    scanStructOption field v field.Tag g =
      if declaresName field = true then
        (none, g.setOptions (g.options ++ [optionOfField field v field.Tag]))
      else (none, g) := by
  rw [scanStructOption_eq]
  unfold shortNameLength at hlen
  by_cases h0 : field.Tag.Get "long" = "" ∧ field.Tag.Get "short" = ""
  · rw [if_pos h0, if_neg (by simp [declaresName, h0.1, h0.2])]
  · rw [if_neg h0, if_neg (by omega), if_pos]
    simp only [declaresName, Bool.not_eq_true', Bool.and_eq_false_iff, decide_eq_false_iff_not]
    by_cases hl : field.Tag.Get "long" = ""
    · exact Or.inr fun hs => h0 ⟨hl, hs⟩
    · exact Or.inl hl

theorem scanStructWalk_flat_ok (handler : scanHandler) (r : reflect.Record)
    (hflat : isFlat r)
    (hshort : ∀ x ∈ r, isScanned x.1 = true → shortNameLength x.1 ≤ 1) :
    ∀ g, scanStructWalk handler r g =
      some (none, g.setOptions (g.options ++ optionsOfFields r)) := by
  induction r with
  | nil =>
    intro g
    rw [scanStructWalk]
    show some (none, g) = some (none, g.setOptions (g.options ++ []))
    rw [setOptions_self_append_nil]
  | cons fv r ih =>
    intro g
    obtain ⟨hfv, hrest⟩ := isFlat_cons fv r hflat
    have ih1 := ih hrest fun x hx => hshort x (List.mem_cons_of_mem _ hx)
    cases hs : isScanned fv.1 with
    | false =>
      rw [scanStructWalk_skip handler fv _ g hs, ih1,
        optionsOfFields_cons_skip fv r (by simp [hs])]
    | true =>
      rw [scanStructWalk_leaf handler fv _ g hs (hfv hs),
        scanStructOption_ok fv.1 fv.2 g (hshort fv (List.mem_cons_self _ _) hs)]
      cases hd : declaresName fv.1 with
      | false =>
        simp only [Bool.false_eq_true, if_false]
        rw [ih1, optionsOfFields_cons_skip fv r (by simp [hd])]
      | true =>
        simp only [if_true]
        rw [ih1, optionsOfFields_cons fv r (by simp [hs, hd]), setOptions_setOptions,
          setOptions_options, List.append_assoc]
        rfl

theorem scanStructWalk_flat_fail (handler : scanHandler) (pre rest : reflect.Record)
    (fv : reflect.StructField × reflect.Value) (g : flags.Group) (hpre : isFlat pre)
    (hshort : ∀ x ∈ pre, isScanned x.1 = true → shortNameLength x.1 ≤ 1)
    (hscanned : isScanned fv.1 = true) (hleaf : isNestedRecord fv.2 = false)
    (hlong : 1 < shortNameLength fv.1) :
    scanStructWalk handler (pre ++ fv :: rest) g =
      some (some flags.error.ErrShortNameTooLong,
        g.setOptions (g.options ++ optionsOfFields pre)) := by
  rw [scanStructWalk_append handler pre _ g hpre, scanStructWalk_flat_ok handler pre hpre hshort]
  simp only
  rw [scanStructWalk_leaf handler fv _ _ hscanned hleaf, scanStructOption_eq]
  have hne : ¬ (fv.1.Tag.Get "long" = "" ∧ fv.1.Tag.Get "short" = "") := by
    rintro ⟨_, hs⟩
    unfold shortNameLength at hlong
    rw [hs] at hlong
    simp at hlong
  have hlong1 : 1 < (fv.1.Tag.Get "short").data.length := hlong
  rw [if_neg hne, if_pos hlong1]

/-- C15: for a record in which no field that is not skipped is a nested record or declares
short-name text of more than one code point, scanning succeeds and appends to the group
exactly one option for each field that is not skipped (exported, no no-flag marker) and
declares a long or a short name, in field declaration order; the option of a field takes
`LongName`, `ShortName`, `Description`, `Default`, `OptionalValue`, `ValueName`,
`DefaultMask` and `IniName` from the tag of the field, and its `Required` and
`OptionalArgument` are true exactly when the `required` and `optional` tag text is
non-empty. The fields `Verbose` (`short:v`), `Name` (`long:name default:anon`) and `Sub`
(`group:sub`) of `exRecEndToEnd` give the options `v`, `name` in that order and the child
group `sub`. -/
theorem scanStruct_flat_options (handler : scanHandler) (r : reflect.Record)
    (g : flags.Group) (hflat : isFlat r)
    (hshort : ∀ x ∈ r, isScanned x.1 = true → shortNameLength x.1 ≤ 1) :
    scanStruct handler r none g =
        some (none, g.setOptions (g.options ++ optionsOfFields r)) ∧
      (∀ (field : reflect.StructField) (value : reflect.Value),
        (optionOfField field value field.Tag).LongName = field.Tag.Get "long" ∧
        (optionOfField field value field.Tag).ShortName =
          (if shortNameLength field = 1 then utf8.DecodeRuneInString (field.Tag.Get "short")
            else Char.ofNat 0) ∧
        (optionOfField field value field.Tag).Description = field.Tag.Get "description" ∧
        (optionOfField field value field.Tag).Default = field.Tag.GetMany "default" ∧
        (optionOfField field value field.Tag).OptionalValue =
          field.Tag.GetMany "optional-value" ∧
        (optionOfField field value field.Tag).ValueName = field.Tag.Get "value-name" ∧
        (optionOfField field value field.Tag).DefaultMask = field.Tag.Get "default-mask" ∧
        (optionOfField field value field.Tag).IniName = field.Tag.Get "ini-name" ∧
        ((optionOfField field value field.Tag).Required = true ↔
          field.Tag.Get "required" ≠ "") ∧
        ((optionOfField field value field.Tag).OptionalArgument = true ↔
          field.Tag.Get "optional" ≠ "")) ∧
      (scan 2 (newGroup "app" "" exRecEndToEnd)).map
          (fun x => (x.1, x.2.options.map (fun o => (o.ShortName, o.LongName)),
            x.2.groups.map (fun c => c.ShortDescription))) =
        some (none, [('v', ""), (Char.ofNat 0, "name")], ["sub"]) := by
  refine ⟨scanStructWalk_flat_ok handler r hflat hshort g, ?_, by decide⟩
  intro field value
  refine ⟨rfl, rfl, rfl, rfl, rfl, rfl, rfl, rfl, ?_, ?_⟩ <;> simp [optionOfField]

/-- Witness of `scanStruct_flat_options`: the record `exRecNameOwner` gives two options,
of the fields `Name` and `Owner`, in that order. -/
theorem scanStruct_flat_options_witness :
    scanStruct (scanSubGroupHandler (scan 0)) exRecNameOwner none
        (newGroup "app" "" exRecNameOwner) =
      some (none, (newGroup "app" "" exRecNameOwner).setOptions
        ((newGroup "app" "" exRecNameOwner).options ++ optionsOfFields exRecNameOwner)) :=
  (scanStruct_flat_options (scanSubGroupHandler (scan 0)) exRecNameOwner
    (newGroup "app" "" exRecNameOwner) (by unfold isFlat; decide) (by decide)).1

/-! ## What a failed scan leaves behind -/

theorem setGroups_options (g : flags.Group) (gs : List flags.Group) :
    (g.setGroups gs).options = g.options := by
  cases g
  rfl

/-- A walk keeps every relation between the group before and after that holds across the
handler and across the appending of options. -/
theorem scanStruct_rel_append (R : flags.Group → flags.Group → Prop) (hrefl : ∀ g, R g g)
    (htrans : ∀ g1 g2 g3, R g1 g2 → R g2 g3 → R g1 g3)
    (hopt : ∀ g os, R g (g.setOptions (g.options ++ os))) (handler : scanHandler)
    (hh : ∀ rv sf g res g1, handler rv sf g = some (res, g1) → R g g1) (r : reflect.Record) :
    ∀ sfield g e g1, scanStruct handler r sfield g = some (e, g1) → R g g1 := by
  have hwalk : ∀ r : reflect.Record,
      ∀ g e g1, scanStructWalk handler r g = some (e, g1) → R g g1 := by
    intro r
    induction r using record_induction with
    | hnil =>
      intro g e g1 h
      simp only [scanStructWalk, Option.some.injEq, Prod.mk.injEq] at h
      rw [← h.2]
      exact hrefl g
    | hcons fv rest ihn ihr =>
      intro g e g1 h
      cases hs : isScanned fv.1 with
      | false =>
        rw [scanStructWalk_skip handler fv _ g hs] at h
        exact ihr g e g1 h
      | true =>
        cases hn : nestedRecord fv.2 with
        | some fs =>
          rw [scanStructWalk_dive handler fv rest fs g hs hn] at h
          unfold scanStruct scanStructFrom at h
          simp only at h
          rcases hr : handler fs fv.1 g with _ | ⟨⟨ok, err⟩, g2⟩
          · rw [hr] at h
            exact Option.noConfusion h
          · rw [hr] at h
            have hg2 := hh fs fv.1 g (ok, err) g2 hr
            cases err with
            | some er =>
              simp only [Option.some.injEq, Prod.mk.injEq] at h
              rw [← h.2]
              exact hg2
            | none =>
              cases ok with
              | true =>
                simp only [Option.some.injEq, Prod.mk.injEq] at h
                rw [← h.2]
                exact hg2
              | false =>
                simp only at h
                exact htrans _ _ _ hg2 (ihn fs hn g2 e g1 h)
        | none =>
          rw [scanStructWalk_leaf handler fv _ g hs (isNestedRecord_eq_false _ hn)] at h
          obtain ⟨os, hos⟩ := scanStructOption_group fv.1 fv.2 fv.1.Tag g
          rcases hopt2 : scanStructOption fv.1 fv.2 fv.1.Tag g with ⟨_ | err, g2⟩
          · rw [hopt2] at h hos
            simp only at h hos
            rw [hos] at h
            exact htrans _ _ _ (hopt g _) (ihr _ e g1 h)
          · rw [hopt2] at h hos
            simp only [Option.some.injEq, Prod.mk.injEq] at h hos
            rw [← h.2, hos]
            exact hopt g _
  intro sfield g e g1 h
  cases sfield with
  | none => exact hwalk r g e g1 h
  | some sf =>
    unfold scanStruct scanStructFrom at h
    simp only at h
    rcases hr : handler r sf g with _ | ⟨⟨ok, err⟩, g2⟩
    · rw [hr] at h
      exact Option.noConfusion h
    · rw [hr] at h
      have hg2 := hh r sf g (ok, err) g2 hr
      cases err with
      | some er =>
        simp only [Option.some.injEq, Prod.mk.injEq] at h
        rw [← h.2]
        exact hg2
      | none =>
        cases ok with
        | true =>
          simp only [Option.some.injEq, Prod.mk.injEq] at h
          rw [← h.2]
          exact hg2
        | false =>
          simp only at h
          exact htrans _ _ _ hg2 (hwalk r g2 e g1 h)

theorem options_prefix_setOptions (g : flags.Group) (os : List flags.Option) :
    g.options <+: (g.setOptions (g.options ++ os)).options := by
  rw [setOptions_options]
  exact List.prefix_append _ _

/-- C20: a failed scan is not rolled back. When the walk of a record fails with
`ErrShortNameTooLong` at the field `fv` (the fields `pre` before it are walked without
`return`), the option list of the group after the call is the list before the call
followed by the options of the fields declared before `fv` that are not skipped and
declare a name. The list before a call is a prefix of the list after it: for `scanStruct`
with any handler that itself keeps the list as a prefix, and for `scan`. -/
theorem scanStruct_failure_keeps_options (handler : scanHandler) (pre rest : reflect.Record)
    (fv : reflect.StructField × reflect.Value) (g : flags.Group) (hpre : isFlat pre)
    (hshort : ∀ x ∈ pre, isScanned x.1 = true → shortNameLength x.1 ≤ 1)
    (hscanned : isScanned fv.1 = true) (hleaf : isNestedRecord fv.2 = false)
    (hlong : 1 < shortNameLength fv.1) :
    (∃ g1, scanStruct handler (pre ++ fv :: rest) none g =
        some (some flags.error.ErrShortNameTooLong, g1) ∧
        g1.options = g.options ++ optionsOfFields pre) ∧
      ((∀ rv sf g0 res g1, handler rv sf g0 = some (res, g1) → g0.options <+: g1.options) →
        ∀ r sfield g0 e g1, scanStruct handler r sfield g0 = some (e, g1) →
          g0.options <+: g1.options) ∧
      (∀ n g0 e g1, scan n g0 = some (e, g1) → g0.options <+: g1.options) := by
  refine ⟨⟨_, scanStructWalk_flat_fail handler pre rest fv g hpre hshort hscanned hleaf hlong,
    setOptions_options _ _⟩, ?_, ?_⟩
  · intro hh r sfield g0 e g1 h
    exact scanStruct_rel_append (fun a b => a.options <+: b.options)
      (fun a => List.prefix_refl _) (fun a b c hab hbc => List.IsPrefix.trans hab hbc)
      options_prefix_setOptions handler hh r sfield g0 e g1 h
  · intro n g0 e g1 h
    cases n with
    | zero => exact Option.noConfusion h
    | succ n =>
      exact scanStruct_rel_append (fun a b => a.options <+: b.options)
        (fun a => List.prefix_refl _) (fun a b c hab hbc => List.IsPrefix.trans hab hbc)
        options_prefix_setOptions _
        (scanSubGroupHandler_rel (fun a b => a.options <+: b.options)
          (fun a => List.prefix_refl _)
          (fun a gs => by
            show a.options <+: (a.setGroups gs).options
            rw [setGroups_options]) (scan n)) g0.data none g0 e g1 h

/-- Witness of `scanStruct_failure_keeps_options`: the walk of `exRecShortTooLong` fails at
`Mode`; the option of `Verbose`, appended before, stays in the list. -/
theorem scanStruct_failure_keeps_options_witness :
    ∃ g1, scanStruct (scanSubGroupHandler (scan 0)) exRecShortTooLong none
        (newGroup "app" "" exRecShortTooLong) =
        some (some flags.error.ErrShortNameTooLong, g1) ∧
      g1.options = (newGroup "app" "" exRecShortTooLong).options ++
        optionsOfFields [exField "Verbose" [("short", ["v"])]] :=
  (scanStruct_failure_keeps_options (scanSubGroupHandler (scan 0))
    [exField "Verbose" [("short", ["v"])]] [] (exField "Mode" [("short", ["xy"])])
    (newGroup "app" "" exRecShortTooLong) (by unfold isFlat; decide) (by decide) (by decide)
    (by decide) (by decide)).1

/-! ## Nested records without group declaration -/

/-- C17 fails as stated: the only field of `exRecHiddenInner` is a nested record without
group key whose record declares the option `x`, but the field is not exported; scanning
succeeds and appends no option to the enclosing group. -/
theorem scan_undeclared_nested_counterexample :
    (optionsOfFields [exField "X" [("long", ["x"])]]).map (fun o => o.LongName) = ["x"] ∧
      exRecHiddenInner.map (fun fv => (isNestedRecord fv.2, fv.1.Tag.Get "group")) =
        [(true, "")] ∧
      (scan 2 (newGroup "app" "" exRecHiddenInner)).map
          (fun r => (r.1, r.2.options.map (fun o => o.LongName),
            r.2.groups.map (fun c => c.ShortDescription))) =
        some (none, [], []) := by
  refine ⟨by decide, by decide, by decide⟩

/-- C17, amended: let the walk of the record of a group reach the nested record field `fv`
(the field is not skipped; every field before it is skipped or is walked without `return`),
and let the tag of `fv` have no group key. Then the sub-group handler creates no child
group for the field (it leaves the group as it is and reports `handled = false`), and the
scan of the group is the walk of the fields of the nested record in the enclosing group
itself, after the options of the fields declared before `fv`; when that walk dives no further
and meets no long short name, the scan appends the options of the nested record after them
and leaves the child groups as they were. -/
theorem scan_undeclared_nested (n : Nat) (g : flags.Group) (pre rest : reflect.Record)
    (fv : reflect.StructField × reflect.Value) (fs : reflect.Record)
    (hdata : g.data = pre ++ fv :: rest) (hpre : isFlat pre)
    (hshort : ∀ x ∈ pre, isScanned x.1 = true → shortNameLength x.1 ≤ 1)
    (hscanned : isScanned fv.1 = true) (hnested : nestedRecord fv.2 = some fs)
    (hgroup : fv.1.Tag.Get "group" = "") :
    scanSubGroupHandler (scan n) fs fv.1 (g.setOptions (g.options ++ optionsOfFields pre)) =
        some ((false, none), g.setOptions (g.options ++ optionsOfFields pre)) ∧
      scan (n + 1) g =
        scanStructWalk (scanSubGroupHandler (scan n)) fs
          (g.setOptions (g.options ++ optionsOfFields pre)) ∧
      (isFlat fs → (∀ x ∈ fs, isScanned x.1 = true → shortNameLength x.1 ≤ 1) →
        ∃ g1, scan (n + 1) g = some (none, g1) ∧
          g1.options = g.options ++ optionsOfFields pre ++ optionsOfFields fs ∧
          g1.groups = g.groups) := by
  have hhandler : ∀ g0, scanSubGroupHandler (scan n) fs fv.1 g0 = some ((false, none), g0) := by
    intro g0
    unfold scanSubGroupHandler
    simp only [hgroup]
    rfl
  have hscan : scan (n + 1) g =
      scanStructWalk (scanSubGroupHandler (scan n)) fs
        (g.setOptions (g.options ++ optionsOfFields pre)) := by
    show scanStructWalk (scanSubGroupHandler (scan n)) g.data g = _
    rw [hdata, scanStructWalk_append _ pre _ g hpre, scanStructWalk_flat_ok _ pre hpre hshort]
    simp only
    rw [scanStructWalk_dive _ fv rest fs _ hscanned hnested]
    unfold scanStruct scanStructFrom
    simp only [hhandler]
  refine ⟨hhandler _, hscan, fun hfs hfshort => ?_⟩
  refine ⟨_, hscan.trans (scanStructWalk_flat_ok _ fs hfs hfshort _), ?_, ?_⟩
  · rw [setOptions_options, setOptions_options]
  · rw [setOptions_groups, setOptions_groups]

/-- Witness of `scan_undeclared_nested`: in `exRecInnerTail` the options of `Inner` are
appended to the group itself, after the option of `Verbose`. -/
theorem scan_undeclared_nested_witness :
    ∃ g1, scan 1 (newGroup "app" "" exRecInnerTail) = some (none, g1) ∧
      g1.options = (newGroup "app" "" exRecInnerTail).options ++
        optionsOfFields [exField "Verbose" [("short", ["v"])]] ++
        optionsOfFields [exField "X" [("long", ["x"])]] ∧
      g1.groups = (newGroup "app" "" exRecInnerTail).groups :=
  (scan_undeclared_nested 0 (newGroup "app" "" exRecInnerTail)
    [exField "Verbose" [("short", ["v"])]] [exField "Tail" [("long", ["tail"])]]
    (⟨"Inner", "", ⟨[]⟩⟩, .Struct [exField "X" [("long", ["x"])]])
    [exField "X" [("long", ["x"])]] rfl (by unfold isFlat; decide) (by decide) (by decide)
    rfl (by decide)).2.2 (by unfold isFlat; decide) (by decide)

/-! ## Skipped fields -/

theorem isScanned_eq_false (field : reflect.StructField)
    (h : field.PkgPath ≠ "" ∨ field.Tag.Get "no-flag" ≠ "") : isScanned field = false := by
  unfold isScanned
  rcases h with h | h <;> simp [h]

/-- A skipped field can be taken out of a record at any position without changing the
walk. -/
theorem scanStructWalk_remove (handler : scanHandler) (pre rest : reflect.Record)
    (fv : reflect.StructField × reflect.Value) (hskip : isScanned fv.1 = false) :
    ∀ g, scanStructWalk handler (pre ++ fv :: rest) g =
      scanStructWalk handler (pre ++ rest) g := by
  induction pre with
  | nil =>
    intro g
    exact scanStructWalk_skip handler fv rest g hskip
  | cons x pre ih =>
    intro g
    rw [List.cons_append, List.cons_append]
    cases hs : isScanned x.1 with
    | false =>
      rw [scanStructWalk_skip handler x _ g hs, scanStructWalk_skip handler x _ g hs]
      exact ih g
    | true =>
      cases hn : nestedRecord x.2 with
      | some fs =>
        rw [scanStructWalk_dive handler x _ fs g hs hn, scanStructWalk_dive handler x _ fs g hs hn]
      | none =>
        rw [scanStructWalk_leaf handler x _ g hs (isNestedRecord_eq_false _ hn),
          scanStructWalk_leaf handler x _ g hs (isNestedRecord_eq_false _ hn)]
        rcases scanStructOption x.1 x.2 x.1.Tag g with ⟨_ | err, g2⟩
        · exact ih g2
        · rfl

theorem setData_setOptions (g : flags.Group) (d : reflect.Record) (os : List flags.Option) :
    (g.setOptions os).setData d = (g.setData d).setOptions os := by
  cases g
  rfl

theorem setData_setGroups (g : flags.Group) (d : reflect.Record) (gs : List flags.Group) :
    (g.setGroups gs).setData d = (g.setData d).setGroups gs := by
  cases g
  rfl

theorem setData_options (g : flags.Group) (d : reflect.Record) :
    (g.setData d).options = g.options := by
  cases g
  rfl

theorem setData_groups (g : flags.Group) (d : reflect.Record) :
    (g.setData d).groups = g.groups := by
  cases g
  rfl

theorem setData_data (g : flags.Group) (d : reflect.Record) : (g.setData d).data = d := by
  cases g
  rfl

theorem scanStructOption_setData (field : reflect.StructField) (v : reflect.Value)
    (mtag : flags.multiTag) (g : flags.Group) (d : reflect.Record) :
    scanStructOption field v mtag (g.setData d) =
      ((scanStructOption field v mtag g).1, (scanStructOption field v mtag g).2.setData d) := by
  rw [scanStructOption_eq, scanStructOption_eq]
  split_ifs
  · rfl
  · rfl
  · simp only [setData_options, setData_setOptions]

theorem scanSubGroupHandler_setData (sc : flags.Group → scanResult) (rv : reflect.Record)
    (sf : reflect.StructField) (g : flags.Group) (d : reflect.Record) :
    scanSubGroupHandler sc rv sf (g.setData d) =
      (scanSubGroupHandler sc rv sf g).map (fun x => (x.1, x.2.setData d)) := by
  unfold scanSubGroupHandler flags.Group.AddGroup
  simp only
  split_ifs
  · rcases sc (newGroup (sf.Tag.Get "group") (sf.Tag.Get "description") rv) with
      _ | ⟨_ | err, grp⟩
    · rfl
    · simp only [Option.map_some', setData_groups, setData_setGroups]
    · rfl
  · rfl

/-- A scan does not read the `data` of the group once the record is taken from it: bound
to another record, the group ends the walk as before, bound to that record. -/
theorem scanStructWalk_setData (sc : flags.Group → scanResult) (d : reflect.Record)
    (r : reflect.Record) :
    ∀ g, scanStructWalk (scanSubGroupHandler sc) r (g.setData d) =
      (scanStructWalk (scanSubGroupHandler sc) r g).map (fun x => (x.1, x.2.setData d)) := by
  induction r using record_induction with
  | hnil =>
    intro g
    simp [scanStructWalk]
  | hcons fv rest ihn ihr =>
    intro g
    cases hs : isScanned fv.1 with
    | false =>
      rw [scanStructWalk_skip _ fv _ _ hs, scanStructWalk_skip _ fv _ _ hs]
      exact ihr g
    | true =>
      cases hn : nestedRecord fv.2 with
      | some fs =>
        rw [scanStructWalk_dive _ fv rest fs _ hs hn, scanStructWalk_dive _ fv rest fs _ hs hn]
        unfold scanStruct scanStructFrom
        simp only
        rw [scanSubGroupHandler_setData]
        rcases scanSubGroupHandler sc fs fv.1 g with _ | ⟨⟨ok, _ | err⟩, g1⟩
        · rfl
        · cases ok
          · exact ihn fs hn g1
          · rfl
        · cases ok <;> rfl
      | none =>
        rw [scanStructWalk_leaf _ fv _ _ hs (isNestedRecord_eq_false _ hn),
          scanStructWalk_leaf _ fv _ _ hs (isNestedRecord_eq_false _ hn),
          scanStructOption_setData]
        rcases scanStructOption fv.1 fv.2 fv.1.Tag g with ⟨_ | err, g2⟩
        · exact ihr g2
        · rfl

/-- C16: a field that is not exported or that carries a non-empty no-flag marker is skipped
entirely, whatever its type and its other tags: the walk of the record, and `scanStruct` on
it, give the same result (error and group) as on the record with that field removed; and
the scan of a group bound to the record gives the error, the options and the child groups
of the scan of the group bound to the record without the field (the two results differ in
the `data` of the group only). -/
theorem scanStruct_skips_field (handler : scanHandler) (pre rest : reflect.Record)
    (fv : reflect.StructField × reflect.Value) (g : flags.Group)
    (hskip : fv.1.PkgPath ≠ "" ∨ fv.1.Tag.Get "no-flag" ≠ "") :
    scanStructWalk handler (pre ++ fv :: rest) g = scanStructWalk handler (pre ++ rest) g ∧
      scanStruct handler (pre ++ fv :: rest) none g = scanStruct handler (pre ++ rest) none g ∧
      ∀ n, scan n ((g.setData (pre ++ fv :: rest)).setData (pre ++ rest)) =
        (scan n (g.setData (pre ++ fv :: rest))).map
          (fun x => (x.1, x.2.setData (pre ++ rest))) := by
  have h := scanStructWalk_remove handler pre rest fv (isScanned_eq_false fv.1 hskip)
  refine ⟨h g, h g, fun n => ?_⟩
  cases n with
  | zero => rfl
  | succ n =>
    show scanStructWalk (scanSubGroupHandler (scan n))
        ((g.setData (pre ++ fv :: rest)).setData (pre ++ rest)).data
        ((g.setData (pre ++ fv :: rest)).setData (pre ++ rest)) =
      (scanStructWalk (scanSubGroupHandler (scan n)) (g.setData (pre ++ fv :: rest)).data
        (g.setData (pre ++ fv :: rest))).map (fun x => (x.1, x.2.setData (pre ++ rest)))
    rw [setData_data, setData_data, scanStructWalk_setData,
      scanStructWalk_remove _ pre rest fv (isScanned_eq_false fv.1 hskip)]

/-- Witness of `scanStruct_skips_field`: the first field of `exRecHiddenMode` is not
exported and declares a short name of two characters; the scan is the scan of the record
without it, which succeeds. -/
theorem scanStruct_skips_field_witness :
    scanStruct (scanSubGroupHandler (scan 0)) exRecHiddenMode none
        (newGroup "app" "" exRecHiddenMode) =
      scanStruct (scanSubGroupHandler (scan 0)) exRecVerbose none
        (newGroup "app" "" exRecHiddenMode) :=
  (scanStruct_skips_field (scanSubGroupHandler (scan 0)) []
    [exField "Verbose" [("short", ["v"])]]
    (⟨"mode", "main", ⟨[("short", ["xy"])]⟩⟩, .other true [])
    (newGroup "app" "" exRecHiddenMode) (Or.inl (by decide))).2.1

/-! ## Propagation of errors -/

/-- The error a walk with the sub-group handler ends with does not depend on the group it
starts from. -/
theorem scanStructWalk_error_indep (sc : flags.Group → scanResult) (r : reflect.Record) :
    ∀ g g0, (scanStructWalk (scanSubGroupHandler sc) r g).map Prod.fst =
      (scanStructWalk (scanSubGroupHandler sc) r g0).map Prod.fst := by
  induction r using record_induction with
  | hnil =>
    intro g g0
    simp [scanStructWalk]
  | hcons fv rest ihn ihr =>
    intro g g0
    cases hs : isScanned fv.1 with
    | false =>
      rw [scanStructWalk_skip _ fv _ _ hs, scanStructWalk_skip _ fv _ _ hs]
      exact ihr g g0
    | true =>
      cases hn : nestedRecord fv.2 with
      | some fs =>
        rw [scanStructWalk_dive _ fv rest fs _ hs hn, scanStructWalk_dive _ fv rest fs _ hs hn]
        unfold scanStruct scanStructFrom scanSubGroupHandler flags.Group.AddGroup
        simp only
        by_cases hg : (fv.1.Tag.Get "group").data.length ≠ 0
        · rw [if_pos hg, if_pos hg]
          rcases sc (newGroup (fv.1.Tag.Get "group") (fv.1.Tag.Get "description") fs) with
            _ | ⟨_ | err, grp⟩ <;> rfl
        · rw [if_neg hg, if_neg hg]
          exact ihn fs hn g g0
      | none =>
        rw [scanStructWalk_leaf _ fv _ _ hs (isNestedRecord_eq_false _ hn),
          scanStructWalk_leaf _ fv _ _ hs (isNestedRecord_eq_false _ hn)]
        have h1 := scanStructOption_error fv.1 fv.2 g
        have h2 := scanStructOption_error fv.1 fv.2 g0
        rcases ho : scanStructOption fv.1 fv.2 fv.1.Tag g with ⟨e1, g1⟩
        rcases ho0 : scanStructOption fv.1 fv.2 fv.1.Tag g0 with ⟨e2, g2⟩
        rw [ho] at h1
        rw [ho0] at h2
        simp only at h1 h2
        have he : e1 = e2 := h1.trans h2.symm
        subst he
        cases e1 with
        | none => exact ihr g1 g2
        | some err => rfl

/-- The error of `scan` depends on the record of the group only. -/
theorem scan_error_indep (n : Nat) (g g0 : flags.Group) (hdata : g.data = g0.data) :
    (scan n g).map Prod.fst = (scan n g0).map Prod.fst := by
  cases n with
  | zero => rfl
  | succ n =>
    show (scanStructWalk (scanSubGroupHandler (scan n)) g.data g).map Prod.fst =
      (scanStructWalk (scanSubGroupHandler (scan n)) g0.data g0).map Prod.fst
    rw [hdata]
    exact scanStructWalk_error_indep (scan n) g0.data g g0

theorem newGroup_data (sd ld : String) (d : reflect.Record) : (newGroup sd ld d).data = d :=
  rfl

/-- C14: an error of the scan of a nested record goes up unchanged. Let the walk of the
record of a group reach the nested record field `fv` (the field is not skipped; every field
before it is skipped or is walked without `return`), whether its tag declares a group or
not. If the scan of the nested record fails with `err`, the scan of the enclosing group
fails with `err`. The conclusion has the form of the premise, so the error reaches every
enclosing record up to the root `scan()`. -/
theorem scan_error_propagates (n : Nat) (g sub : flags.Group) (pre rest : reflect.Record)
    (fv : reflect.StructField × reflect.Value) (fs : reflect.Record) (err : flags.error)
    (hdata : g.data = pre ++ fv :: rest) (hpre : isFlat pre)
    (hshort : ∀ x ∈ pre, isScanned x.1 = true → shortNameLength x.1 ≤ 1)
    (hscanned : isScanned fv.1 = true) (hnested : nestedRecord fv.2 = some fs)
    (hsubdata : sub.data = fs) (hsub : (scan n sub).map Prod.fst = some (some err)) :
    (scan (n + 1) g).map Prod.fst = some (some err) := by
  show (scanStructWalk (scanSubGroupHandler (scan n)) g.data g).map Prod.fst = _
  rw [hdata, scanStructWalk_append _ pre _ g hpre, scanStructWalk_flat_ok _ pre hpre hshort]
  simp only
  rw [scanStructWalk_dive _ fv rest fs _ hscanned hnested]
  by_cases hg : (fv.1.Tag.Get "group").data.length ≠ 0
  · have hnew : (scan n (newGroup (fv.1.Tag.Get "group") (fv.1.Tag.Get "description")
        fs)).map Prod.fst = some (some err) := by
      rw [scan_error_indep n _ sub (by rw [newGroup_data, hsubdata])]
      exact hsub
    have hh : ∀ g0, scanSubGroupHandler (scan n) fs fv.1 g0 = some ((true, some err), g0) := by
      intro g0
      unfold scanSubGroupHandler flags.Group.AddGroup
      simp only
      rw [if_pos hg]
      rcases hr : scan n (newGroup (fv.1.Tag.Get "group") (fv.1.Tag.Get "description") fs)
        with _ | ⟨e, grp⟩
      · rw [hr] at hnew
        simp at hnew
      · rw [hr] at hnew
        simp only [Option.map_some', Option.some.injEq] at hnew
        subst hnew
        rfl
    unfold scanStruct scanStructFrom
    simp only [hh]
    rfl
  · have hh : ∀ g0, scanSubGroupHandler (scan n) fs fv.1 g0 = some ((false, none), g0) := by
      intro g0
      unfold scanSubGroupHandler
      simp only
      rw [if_neg hg]
    unfold scanStruct scanStructFrom
    simp only [hh]
    cases n with
    | zero => simp [scan] at hsub
    | succ m =>
      rcases hr : scan (m + 1) sub with _ | ⟨e, grp⟩
      · rw [hr] at hsub
        simp at hsub
      · rw [hr] at hsub
        simp only [Option.map_some', Option.some.injEq] at hsub
        subst hsub
        have hmono : scanStructWalk (scanSubGroupHandler (scan (m + 1))) fs sub =
            some (some err, grp) := by
          have h0 : scanStructWalk (scanSubGroupHandler (scan m)) fs sub =
              some (some err, grp) := by
            rw [← hsubdata]
            exact hr
          exact scanStructWalk_mono (scan m) (scan (m + 1)) (scan_mono m) fs sub _ h0
        rw [scanStructWalk_error_indep (scan (m + 1)) fs _ sub, hmono]
        rfl

/-- Witness of `scan_error_propagates`: the sub-group of `exRecSubTooLong` declares a short
name of two characters; the scan of the root fails with `ErrShortNameTooLong`. -/
theorem scan_error_propagates_witness :
    (scan 2 (newGroup "app" "" exRecSubTooLong)).map Prod.fst =
      some (some flags.error.ErrShortNameTooLong) :=
  scan_error_propagates 1 (newGroup "app" "" exRecSubTooLong)
    (newGroup "sub" "" [exField "Mode" [("short", ["xy"])]])
    [exField "Verbose" [("short", ["v"])]] []
    (⟨"Sub", "", ⟨[("group", ["sub"])]⟩⟩, .Struct [exField "Mode" [("short", ["xy"])]])
    [exField "Mode" [("short", ["xy"])]] flags.error.ErrShortNameTooLong rfl
    (by unfold isFlat; decide) (by decide) (by decide) rfl rfl (by decide)

/-! ## Strings -/

theorem string_eq_of_data (a b : String) (h : a.data = b.data) : a = b := by
  cases a
  cases b
  simp only at h
  rw [h]

theorem hasPrefix_append (p s : String) : strings.HasPrefix (p ++ s) p = true := by
  unfold strings.HasPrefix
  rw [String.data_append, List.isPrefixOf_iff_prefix]
  exact List.prefix_append _ _

theorem sliceFrom_append (p s : String) : strings.sliceFrom (p ++ s) p.data.length = s := by
  apply string_eq_of_data
  unfold strings.sliceFrom
  rw [String.data_append]
  simp

theorem eq_append_of_hasPrefix (name p : String) (h : strings.HasPrefix name p = true) :
    name = p ++ strings.sliceFrom name p.data.length := by
  unfold strings.HasPrefix at h
  rw [List.isPrefixOf_iff_prefix] at h
  obtain ⟨t, ht⟩ := h
  apply string_eq_of_data
  unfold strings.sliceFrom
  rw [String.data_append, ← ht]
  simp

theorem hasPrefix_self_dot (l : String) : strings.HasPrefix l (l ++ ".") = false := by
  cases h : strings.HasPrefix l (l ++ ".") with
  | false => rfl
  | true =>
    exfalso
    unfold strings.HasPrefix at h
    rw [List.isPrefixOf_iff_prefix, String.data_append] at h
    have hlen := h.length_le
    rw [List.length_append] at hlen
    have : (".": String).data.length = 1 := rfl
    omega

theorem toLower_toLower (lower : Char → Char) (hidem : ∀ c, lower (lower c) = lower c)
    (s : String) : strings.ToLower lower (strings.ToLower lower s) = strings.ToLower lower s := by
  apply string_eq_of_data
  unfold strings.ToLower
  simp only [List.map_map]
  apply List.map_congr_left
  intro c _
  exact hidem c

theorem toLower_sliceFrom (lower : Char → Char) (name : String) (n : Nat)
    (h : strings.ToLower lower name = name) :
    strings.ToLower lower (strings.sliceFrom name n) = strings.sliceFrom name n := by
  apply string_eq_of_data
  unfold strings.ToLower strings.sliceFrom
  simp only
  have hd : name.data.map lower = name.data := congrArg String.data h
  rw [List.map_drop, hd]

theorem toLower_length (lower : Char → Char) (s : String) :
    (strings.ToLower lower s).data.length = s.data.length := by
  unfold strings.ToLower
  simp

/-! ## `groupByName`: completeness and soundness -/

theorem dottedNames_single (lower : Char → Char) (c : flags.Group) :
    dottedNames lower [c] = lowerName lower c := rfl

theorem dottedNames_cons_cons (lower : Char → Char) (c c1 : flags.Group)
    (cs : List flags.Group) :
    dottedNames lower (c :: c1 :: cs) =
      lowerName lower c ++ "." ++ dottedNames lower (c1 :: cs) := rfl

/-- One step of the loop either returns a group or goes on with the later siblings. -/
theorem groupByNameLoop_cons_cases (lower : Char → Char) (name : String)
    (subg : flags.Group) (rest : List flags.Group) :
    (groupByNameLoop lower name (subg :: rest)).isSome = true ∨
      groupByNameLoop lower name (subg :: rest) = groupByNameLoop lower name rest := by
  rw [groupByNameLoop_cons]
  split_ifs
  · cases groupByName lower
      (strings.sliceFrom name (lowerName lower subg ++ ".").data.length) subg with
    | none => exact Or.inr rfl
    | some grp => exact Or.inl rfl
  · exact Or.inl rfl
  · exact Or.inr rfl

/-- The loop returns a group when one of the children matches: the path continues below it
to a group, or the path is its lowercased name. -/
theorem groupByNameLoop_isSome_of_mem (lower : Char → Char) (name : String)
    (c : flags.Group) (gs : List flags.Group) (hc : c ∈ gs)
    (hpfx : strings.HasPrefix name (lowerName lower c ++ ".") = true →
      (groupByName lower
        (strings.sliceFrom name (lowerName lower c ++ ".").data.length) c).isSome = true)
    (hname : strings.HasPrefix name (lowerName lower c ++ ".") = false →
      name = lowerName lower c) :
    (groupByNameLoop lower name gs).isSome = true := by
  induction gs with
  | nil => simp at hc
  | cons x rest ih =>
    rcases List.mem_cons.mp hc with hx | hrest
    · subst hx
      rw [groupByNameLoop_cons]
      cases hp : strings.HasPrefix name (lowerName lower c ++ ".") with
      | true =>
        rw [if_pos rfl]
        have hsome := hpfx hp
        cases hr : groupByName lower
            (strings.sliceFrom name (lowerName lower c ++ ".").data.length) c with
        | none =>
          rw [hr] at hsome
          exact Bool.noConfusion hsome
        | some grp => rfl
      | false =>
        simp only [Bool.false_eq_true, if_false]
        rw [if_pos (hname hp)]
        rfl
    · rcases groupByNameLoop_cons_cases lower name x rest with h | h
      · exact h
      · rw [h]
        exact ih hrest

theorem groupByName_complete_aux (lower : Char → Char) (cs : List flags.Group) :
    ∀ (g : flags.Group) (name : String), cs ≠ [] → isChildChain g cs →
      strings.ToLower lower name = name → name = dottedNames lower cs →
      (groupByName lower name g).isSome = true := by
  induction cs with
  | nil =>
    intro g name hne
    exact absurd rfl hne
  | cons c cs ih =>
    intro g name _ hchain hlow hname
    rw [isChildChain] at hchain
    rw [groupByName_eq, hlow]
    split_ifs with hlen
    · rfl
    · cases cs with
      | nil =>
        rw [dottedNames_single] at hname
        refine groupByNameLoop_isSome_of_mem lower name c g.groups hchain.1 (fun hp => ?_)
          (fun _ => hname)
        rw [hname, hasPrefix_self_dot] at hp
        exact Bool.noConfusion hp
      | cons c1 cs1 =>
        rw [dottedNames_cons_cons] at hname
        refine groupByNameLoop_isSome_of_mem lower name c g.groups hchain.1 (fun _ => ?_)
          (fun hp => ?_)
        · have hrem : strings.sliceFrom name (lowerName lower c ++ ".").data.length =
              dottedNames lower (c1 :: cs1) := by
            rw [hname, sliceFrom_append]
          have hremlow := toLower_sliceFrom lower name
            (lowerName lower c ++ ".").data.length hlow
          rw [hrem] at hremlow ⊢
          exact ih c _ (List.cons_ne_nil _ _) hchain.2 hremlow rfl
        · rw [hname, hasPrefix_append] at hp
          exact Bool.noConfusion hp

/-- C18: completeness of `groupByName`. With `unicode.ToLower` idempotent, if there is a
chain of groups below `g`, each a child of the one before, whose lowercased
`ShortDescription`s joined by `.` are the lowercased path, `groupByName(path)` on `g`
returns a group; and a child whose prefix matches but below which the remainder leads to
no group does not end the search: the loop goes on with the later siblings. -/
theorem groupByName_complete (lower : Char → Char) (hidem : ∀ c, lower (lower c) = lower c)
    (g : flags.Group) (cs : List flags.Group) (path : String) (hne : cs ≠ [])
    (hchain : isChildChain g cs)
    (hpath : strings.ToLower lower path = dottedNames lower cs) :
    (groupByName lower path g).isSome = true ∧
      ∀ (name : String) (subg : flags.Group) (rest : List flags.Group),
        strings.HasPrefix name (lowerName lower subg ++ ".") = true →
        groupByName lower
          (strings.sliceFrom name (lowerName lower subg ++ ".").data.length) subg = none →
        groupByNameLoop lower name (subg :: rest) = groupByNameLoop lower name rest := by
  constructor
  · have h := groupByName_complete_aux lower cs g (strings.ToLower lower path) hne hchain
      (toLower_toLower lower hidem path) hpath
    rw [groupByName_eq, toLower_toLower lower hidem] at h
    rw [groupByName_eq]
    exact h
  · intro name subg rest hp hnone
    exact groupByNameLoop_skip lower name subg rest (fun _ => hnone) fun hf => by
      rw [hp] at hf
      exact Bool.noConfusion hf

theorem char_ofNat_toNat (n : Nat) (h : n < 55296) : (Char.ofNat n).toNat = n := by
  have hv : n.isValidChar := Or.inl h
  unfold Char.ofNat
  rw [dif_pos hv]
  unfold Char.ofNatAux Char.toNat
  simp only
  show (UInt32.ofNat' n _).toNat = n
  simp [UInt32.ofNat', UInt32.toNat]

/-- The lowering of the ASCII letters, used in the examples, is idempotent. -/
theorem char_toLower_idem (c : Char) : c.toLower.toLower = c.toLower := by
  by_cases h : c.toNat ≥ 65 ∧ c.toNat ≤ 90
  · have h1 : c.toLower = Char.ofNat (c.toNat + 32) := by
      simp only [Char.toLower]
      rw [if_pos h]
    have h2 : (Char.ofNat (c.toNat + 32)).toNat = c.toNat + 32 :=
      char_ofNat_toNat _ (by omega)
    rw [h1]
    simp only [Char.toLower]
    rw [if_neg]
    rw [h2]
    omega
  · have h1 : c.toLower = c := by
      simp only [Char.toLower]
      rw [if_neg h]
    rw [h1, h1]

/-- Witness of `groupByName_complete`: the chain `a`, `b` of `exTreeAB` and the path `A.B`,
with the lowering of the ASCII letters. -/
theorem groupByName_complete_witness :
    (groupByName Char.toLower "A.B" exTreeAB).isSome = true :=
  (groupByName_complete Char.toLower char_toLower_idem exTreeAB
    [exGroup "a" "" [exGroup "b" "" [exGroup "c" "" []]], exGroup "b" "" [exGroup "c" "" []]]
    "A.B" (by simp)
    (by simp [isChildChain, exTreeAB, exGroup, flags.Group.groups]) (by decide)).1

theorem isChildChain_cons (g c : flags.Group) (cs : List flags.Group) :
    isChildChain g (c :: cs) ↔ c ∈ g.groups ∧ isChildChain c cs := by
  rw [isChildChain]

theorem groupByName_sound_loop (lower : Char → Char) (g : flags.Group)
    (ih : ∀ c ∈ g.groups, ∀ (name : String) (r : flags.Group),
      strings.ToLower lower name = name → name.data.length ≠ 0 →
      groupByNameLoop lower name c.groups = some r →
      ∃ cs, cs ≠ [] ∧ isChildChain c cs ∧ cs.getLast? = some r ∧
        (name = dottedNames lower cs ∨ name = dottedNames lower cs ++ "."))
    (name : String) (r : flags.Group) (hlow : strings.ToLower lower name = name)
    (gs : List flags.Group) :
    (∀ c ∈ gs, c ∈ g.groups) → groupByNameLoop lower name gs = some r →
      ∃ cs, cs ≠ [] ∧ isChildChain g cs ∧ cs.getLast? = some r ∧
        (name = dottedNames lower cs ∨ name = dottedNames lower cs ++ ".") := by
  induction gs with
  | nil =>
    intro _ h
    rw [groupByNameLoop] at h
    exact Option.noConfusion h
  | cons x rest ihl =>
    intro hsub h
    have hx : x ∈ g.groups := hsub x (List.mem_cons_self _ _)
    have hrest : ∀ c ∈ rest, c ∈ g.groups := fun c hc => hsub c (List.mem_cons_of_mem _ hc)
    rw [groupByNameLoop_cons] at h
    cases hp : strings.HasPrefix name (lowerName lower x ++ ".") with
    | true =>
      rw [hp, if_pos rfl] at h
      have hname := eq_append_of_hasPrefix name _ hp
      have hremlow := toLower_sliceFrom lower name (lowerName lower x ++ ".").data.length hlow
      generalize strings.sliceFrom name (lowerName lower x ++ ".").data.length = rem at *
      cases hrec : groupByName lower rem x with
      | none =>
        rw [hrec] at h
        exact ihl hrest h
      | some grp =>
        rw [hrec] at h
        simp only [Option.some.injEq] at h
        subst h
        rw [groupByName_eq, hremlow] at hrec
        by_cases hlen : rem.data.length = 0
        · rw [if_pos hlen] at hrec
          simp only [Option.some.injEq] at hrec
          subst hrec
          refine ⟨[x], List.cons_ne_nil _ _, (isChildChain_cons _ _ _).mpr ⟨hx, trivial⟩, rfl,
            Or.inr ?_⟩
          have hrem : rem = "" := string_eq_of_data _ _ (List.length_eq_zero.mp hlen)
          rw [dottedNames_single, hname, hrem, String.append_empty]
        · rw [if_neg hlen] at hrec
          obtain ⟨cs, hne, hchain, hlast, hdot⟩ := ih x hx rem grp hremlow hlen hrec
          cases cs with
          | nil => exact absurd rfl hne
          | cons c1 cs1 =>
            refine ⟨x :: c1 :: cs1, List.cons_ne_nil _ _,
              (isChildChain_cons _ _ _).mpr ⟨hx, hchain⟩, ?_, ?_⟩
            · rw [List.getLast?_cons_cons]
              exact hlast
            · rw [dottedNames_cons_cons]
              rcases hdot with hd | hd
              · exact Or.inl (by rw [← hd]; exact hname)
              · refine Or.inr ?_
                rw [String.append_assoc, ← hd]
                exact hname
    | false =>
      rw [hp] at h
      simp only [Bool.false_eq_true, if_false] at h
      by_cases hn : name = lowerName lower x
      · rw [if_pos hn] at h
        simp only [Option.some.injEq] at h
        subst h
        exact ⟨[x], List.cons_ne_nil _ _, (isChildChain_cons _ _ _).mpr ⟨hx, trivial⟩, rfl,
          Or.inl hn⟩
      · rw [if_neg hn] at h
        exact ihl hrest h

theorem groupByName_sound_aux (lower : Char → Char) (g : flags.Group) :
    ∀ (name : String) (r : flags.Group),
      strings.ToLower lower name = name → name.data.length ≠ 0 →
      groupByNameLoop lower name g.groups = some r →
      ∃ cs, cs ≠ [] ∧ isChildChain g cs ∧ cs.getLast? = some r ∧
        (name = dottedNames lower cs ∨ name = dottedNames lower cs ++ ".") := by
  induction g using group_induction with
  | hmk sd ld d os gs ih =>
    intro name r hlow _ h
    exact groupByName_sound_loop lower (.mk sd ld d os gs) ih name r hlow gs
      (fun c hc => hc) h

/-- C19: soundness of `groupByName`. With `unicode.ToLower` idempotent, whenever
`groupByName(path)` on `g` returns a group `r`, either the path is empty and `r` is `g`, or
the path is not empty and `r` is the last group of a chain of groups below `g`, each a
child of the one before, whose lowercased `ShortDescription`s joined by `.` are the
lowercased path, or the lowercased path with one trailing `.` removed. -/
theorem groupByName_sound (lower : Char → Char) (hidem : ∀ c, lower (lower c) = lower c)
    (g r : flags.Group) (path : String) (h : groupByName lower path g = some r) :
    (path = "" ∧ r = g) ∨
      (path ≠ "" ∧ ∃ cs, cs ≠ [] ∧ isChildChain g cs ∧ cs.getLast? = some r ∧
        (strings.ToLower lower path = dottedNames lower cs ∨
          strings.ToLower lower path = dottedNames lower cs ++ ".")) := by
  rw [groupByName_eq] at h
  by_cases hlen : (strings.ToLower lower path).data.length = 0
  · rw [if_pos hlen] at h
    simp only [Option.some.injEq] at h
    rw [toLower_length] at hlen
    exact Or.inl ⟨string_eq_of_data _ _ (List.length_eq_zero.mp hlen), h.symm⟩
  · rw [if_neg hlen] at h
    refine Or.inr ⟨fun hp => hlen ?_, groupByName_sound_aux lower g _ r
      (toLower_toLower lower hidem path) hlen h⟩
    rw [hp]
    rfl

/-- Witness of `groupByName_sound`: on `exTreeAB`, `groupByName("a.")` returns the child
named `a`, the path with its trailing `.` removed. -/
theorem groupByName_sound_witness :
    ("a." = "" ∧ exGroup "a" "" [exGroup "b" "" [exGroup "c" "" []]] = exTreeAB) ∨
      ("a." ≠ "" ∧ ∃ cs, cs ≠ [] ∧ isChildChain exTreeAB cs ∧
        cs.getLast? = some (exGroup "a" "" [exGroup "b" "" [exGroup "c" "" []]]) ∧
        (strings.ToLower Char.toLower "a." = dottedNames Char.toLower cs ∨
          strings.ToLower Char.toLower "a." = dottedNames Char.toLower cs ++ ".")) :=
  groupByName_sound Char.toLower char_toLower_idem exTreeAB
    (exGroup "a" "" [exGroup "b" "" [exGroup "c" "" []]]) "a." rfl

/-! ## Short names the walk reaches -/

theorem reachesLongShortName_skip (fv : reflect.StructField × reflect.Value)
    (rest : reflect.Record) (h : isScanned fv.1 = false) :
    reachesLongShortName (fv :: rest) = reachesLongShortName rest := by
  rw [reachesLongShortName, h]
  rfl

theorem reachesLongShortNameIn_nested (v : reflect.Value) (fs : reflect.Record)
    (h : nestedRecord v = some fs) :
    reachesLongShortNameIn v = some (reachesLongShortName fs) := by
  cases v with
  | other c cs => simp [nestedRecord] at h
  | Struct fs1 =>
    simp only [nestedRecord, Option.some.injEq] at h
    subst h
    rw [reachesLongShortNameIn]
  | PtrToStruct e =>
    cases e with
    | none => simp [nestedRecord] at h
    | some fs1 =>
      simp only [nestedRecord, Option.some.injEq] at h
      subst h
      rw [reachesLongShortNameIn]

theorem reachesLongShortNameIn_leaf (v : reflect.Value) (h : nestedRecord v = none) :
    reachesLongShortNameIn v = none := by
  cases v with
  | other c cs => rfl
  | Struct fs => simp [nestedRecord] at h
  | PtrToStruct e =>
    cases e with
    | none => rfl
    | some fs => simp [nestedRecord] at h

theorem reachesLongShortName_dive (fv : reflect.StructField × reflect.Value)
    (rest fs : reflect.Record) (h : isScanned fv.1 = true) (hn : nestedRecord fv.2 = some fs) :
    reachesLongShortName (fv :: rest) = reachesLongShortName fs := by
  rw [reachesLongShortName, h, reachesLongShortNameIn_nested fv.2 fs hn]
  rfl

theorem reachesLongShortName_leaf (fv : reflect.StructField × reflect.Value)
    (rest : reflect.Record) (h : isScanned fv.1 = true) (hn : nestedRecord fv.2 = none) :
    reachesLongShortName (fv :: rest) =
      (decide (1 < shortNameLength fv.1) || reachesLongShortName rest) := by
  rw [reachesLongShortName, h, reachesLongShortNameIn_leaf fv.2 hn]
  rfl

/-- The error of a walk whose handler runs a scan that fails exactly on the records where
a short name that is too long is reached. -/
theorem scanStructWalk_short_name_error (sc : flags.Group → scanResult) (n : Nat)
    (hsc : ∀ sd ld fs, recordLevels fs < n → (sc (newGroup sd ld fs)).map Prod.fst =
      some (if reachesLongShortName fs = true then some flags.error.ErrShortNameTooLong
        else none))
    (r : reflect.Record) :
    recordLevels r ≤ n → ∀ g, (scanStructWalk (scanSubGroupHandler sc) r g).map Prod.fst =
      some (if reachesLongShortName r = true then some flags.error.ErrShortNameTooLong
        else none) := by
  induction r using record_induction with
  | hnil =>
    intro _ g
    rfl
  | hcons fv rest ihn ihr =>
    intro hle g
    rw [recordLevels_cons] at hle
    have hrest : recordLevels rest ≤ n := le_trans (le_max_right _ _) hle
    cases hs : isScanned fv.1 with
    | false =>
      rw [scanStructWalk_skip _ fv _ g hs, reachesLongShortName_skip fv rest hs]
      exact ihr hrest g
    | true =>
      cases hn : nestedRecord fv.2 with
      | some fs =>
        have hfs : recordLevels fs < n := by
          have := valueLevels_nested fv.2 fs hn
          have := le_trans (le_max_left _ _) hle
          omega
        rw [scanStructWalk_dive _ fv rest fs g hs hn, reachesLongShortName_dive fv rest fs hs hn]
        unfold scanStruct scanStructFrom scanSubGroupHandler flags.Group.AddGroup
        simp only
        by_cases hg : (fv.1.Tag.Get "group").data.length ≠ 0
        · rw [if_pos hg]
          have hres := hsc (fv.1.Tag.Get "group") (fv.1.Tag.Get "description") fs hfs
          rcases hr : sc (newGroup (fv.1.Tag.Get "group") (fv.1.Tag.Get "description") fs)
            with _ | ⟨_ | err, grp⟩
          · rw [hr] at hres
            exact Option.noConfusion hres
          · rw [hr] at hres
            exact hres
          · rw [hr] at hres
            exact hres
        · rw [if_neg hg]
          exact ihn fs hn (le_of_lt hfs) g
      | none =>
        rw [scanStructWalk_leaf _ fv _ g hs (isNestedRecord_eq_false _ hn),
          reachesLongShortName_leaf fv rest hs hn]
        have herr := scanStructOption_error fv.1 fv.2 g
        rcases hopt : scanStructOption fv.1 fv.2 fv.1.Tag g with ⟨_ | err, g2⟩
        · rw [hopt] at herr
          have hshort : ¬ 1 < shortNameLength fv.1 := by
            intro hlt
            rw [if_pos hlt] at herr
            exact Option.noConfusion herr
          have hdec : decide (1 < shortNameLength fv.1) = false := decide_eq_false hshort
          rw [hdec, Bool.false_or]
          exact ihr hrest g2
        · rw [hopt] at herr
          have hlong : 1 < shortNameLength fv.1 := by
            by_contra hlt
            rw [if_neg hlt] at herr
            exact Option.noConfusion herr
          rw [if_pos hlong] at herr
          have hdec : decide (1 < shortNameLength fv.1) = true := decide_eq_true hlong
          rw [hdec, Bool.true_or, if_pos rfl]
          show some (some err) = _
          rw [← herr]

/-- C4 fails as stated: the field `mode` of `exRecHiddenMode` and the field `Mode` of
`exRecInnerThenLong` declare the short-name text `xy`, of two code points, yet the scan of
either record succeeds. The field `mode` is not exported and is skipped; the field `Mode`
is declared after the nested record `Inner`, where the walk returns. -/
theorem scan_long_short_name_counterexample :
    (∃ fv ∈ exRecHiddenMode, fv.1.Name = "mode" ∧ shortNameLength fv.1 = 2) ∧
      (scan 1 (newGroup "app" "" exRecHiddenMode)).map Prod.fst = some none ∧
      (∃ fv ∈ exRecInnerThenLong, fv.1.Name = "Mode" ∧ shortNameLength fv.1 = 2) ∧
      (scan 1 (newGroup "app" "" exRecInnerThenLong)).map Prod.fst = some none := by
  refine ⟨⟨_, List.mem_cons_self _ _, rfl, by decide⟩, by decide,
    ⟨_, List.mem_cons_of_mem _ (List.mem_cons_self _ _), rfl, by decide⟩, by decide⟩

/-- C4, amended: for every record, with fuel for its struct levels, the scan returns, and
it fails with `ErrShortNameTooLong` exactly when the field walk reaches a field that
declares short-name text of two or more code points; otherwise it succeeds, in particular
when every field that is reached declares a short name of exactly one character. The walk
passes over the fields that are skipped (not exported, or marked no-flag), dives into the
first field that is not skipped and is a nested record, and does not come back to the
fields declared after it. -/
theorem scan_short_name_too_long_iff_reached (n : Nat) (g : flags.Group)
    (hfuel : recordLevels g.data < n) :
    (scan n g).map Prod.fst =
      some (if reachesLongShortName g.data = true then some flags.error.ErrShortNameTooLong
        else none) := by
  induction n generalizing g with
  | zero => omega
  | succ n ih =>
    exact scanStructWalk_short_name_error (scan n) n
      (fun sd ld fs hfs => by
        have h := ih (newGroup sd ld fs) (by rw [newGroup_data]; exact hfs)
        rw [newGroup_data] at h
        exact h)
      g.data (Nat.lt_succ_iff.mp hfuel) g

/-- Witness of `scan_short_name_too_long_iff_reached`: the scan of `exRecLongThenInner`,
whose first field declares the short-name text `xy`, fails with `ErrShortNameTooLong`; the
scan of `exRecInnerTail`, where no such field is reached, succeeds. -/
theorem scan_short_name_too_long_iff_reached_witness :
    recordLevels (newGroup "app" "" exRecLongThenInner).data < 2 ∧
      reachesLongShortName (newGroup "app" "" exRecLongThenInner).data = true ∧
      (scan 2 (newGroup "app" "" exRecLongThenInner)).map Prod.fst =
        some (some flags.error.ErrShortNameTooLong) ∧
      recordLevels (newGroup "app" "" exRecInnerTail).data < 2 ∧
      reachesLongShortName (newGroup "app" "" exRecInnerTail).data = false ∧
      (scan 2 (newGroup "app" "" exRecInnerTail)).map Prod.fst = some none :=
  ⟨by decide, by decide,
    scan_short_name_too_long_iff_reached 2 (newGroup "app" "" exRecLongThenInner)
      (by decide),
    by decide, by decide,
    scan_short_name_too_long_iff_reached 2 (newGroup "app" "" exRecInnerTail) (by decide)⟩
